import Mathlib

/-!
# uniform_random operator (paddle/operators/uniform_random_op.cc)

A shallow embedding of the operator's shape inference, its attribute
declarations, its CPU kernel and its kernel registration, followed by the
properties established about them.

Conventions of the embedding:
* C++ `int`, `unsigned int` and `int64_t` values are integers with the
  conversions written out modulo `2^32` / `2^64`;
* a `float` attribute is the rational number it denotes (finite values; the
  only operation shape inference performs on them is the comparison `<`,
  which is exact);
* the kernel is a template over its element type `T`; the arithmetic of `T`
  is a record of operations (`RealArith T`), so every statement proved for
  all `RealArith T` holds whatever the rounding behaviour of `T` is; the
  registered `float` kernel is the instance `RealArith.binary32` (IEEE
  binary32, round to nearest even, non-finite results collapsed to `none`),
  and `RealArith.exact` is arithmetic without rounding;
* C++ exceptions are values of `Error`; a routine that can throw after
  mutating its context returns the context together with the outcome.
-/

namespace paddle

/-! ## Machine integers -/

/-- The value range of the C++ type `int` (32 bit, two's complement). -/
def isInt (x : Int) : Prop := -2147483648 ≤ x ∧ x ≤ 2147483647

instance (x : Int) : Decidable (isInt x) := by
  unfold isInt
  exact inferInstance

/-- Conversion `static_cast<int64_t>(x)`: the representative of `x` modulo
`2^64` in the signed 64-bit range. -/
def static_cast_int64 (x : Int) : Int :=
  (x + 9223372036854775808) % 18446744073709551616 - 9223372036854775808

/-- Conversion `static_cast<unsigned int>(x)`: `x` reduced modulo `2^32`. -/
def static_cast_unsigned (x : Int) : Nat := (x % 4294967296).toNat

/-! ## Errors -/

/-- The exceptions the operator and the framework pieces it relies on can raise. -/
inductive Error where
  /-- Raised by `PADDLE_ENFORCE(cond, msg)` when `cond` is false. -/
  | EnforceNotMet (msg : String)
  /-- An attribute is read that the attribute map does not hold with that type. -/
  | MissingAttributeError (name : String)
  /-- A required attribute is missing or ill-typed at schema validation. -/
  | SchemaError (name : String)
  /-- No kernel is registered under the requested key. -/
  | UnsupportedKernelError
  /-- A kernel is already registered under the key. -/
  | DuplicateKernelError
  deriving DecidableEq, Repr

/-! ## Attributes -/

/-- The attribute value types used by this operator: `int`, `float` and
`std::vector<int>`. -/
inductive Attribute where
  | int (v : Int)
  | float (v : ℚ)
  | ints (v : List Int)
  deriving DecidableEq

/-- The attribute map of an operator: attribute name to value. -/
abbrev AttributeMap := List (String × Attribute)

namespace AttributeMap

/-- Modelled from the spec: the typed attribute read `Attrs().Get<int>(name)`
(framework code outside this file); it returns the value or fails when the
attribute is absent or not an `int`. -/
def GetInt (m : AttributeMap) (name : String) : Except Error Int :=
  match m.lookup name with
  | some (Attribute.int v) => .ok v
  | _ => .error (.MissingAttributeError name)

/-- Modelled from the spec: the typed attribute read `Attrs().Get<float>(name)`. -/
def GetFloat (m : AttributeMap) (name : String) : Except Error ℚ :=
  match m.lookup name with
  | some (Attribute.float v) => .ok v
  | _ => .error (.MissingAttributeError name)

/-- Modelled from the spec: the typed attribute read
`Attrs().Get<std::vector<int>>(name)`. -/
def GetInts (m : AttributeMap) (name : String) : Except Error (List Int) :=
  match m.lookup name with
  | some (Attribute.ints v) => .ok v
  | _ => .error (.MissingAttributeError name)

end AttributeMap

/-! ## Shape inference -/

/-- A tensor shape `framework::DDim`: the sequence of `int64_t` extents. -/
abbrev DDim := List Int

/-- Modelled from the spec: `framework::make_ddim` (outside this file) builds
the shape holding the given extents, in order. -/
def make_ddim (dims : List Int) : DDim := dims

/-- Modelled from the spec: `framework::InferShapeContext` (outside this
file), reduced to what `UniformRandomOp::InferShape` touches: the names of
the outputs that are present, the attributes, and the shapes set so far. -/
structure InferShapeContext where
  outputs : List String
  attrs : AttributeMap
  outputDims : List (String × DDim)
  deriving DecidableEq

namespace InferShapeContext

/-- Test `ctx->HasOutput(name)`. -/
def HasOutput (ctx : InferShapeContext) (name : String) : Bool :=
  ctx.outputs.contains name

/-- Call `ctx->SetOutputDim(name, dim)`: records `dim` as the shape of the output. -/
def SetOutputDim (ctx : InferShapeContext) (name : String) (dim : DDim) :
    InferShapeContext :=
  { ctx with outputDims := (name, dim) :: ctx.outputDims.filter (fun p => p.1 != name) }

/-- The shape currently recorded for an output, if any. -/
def GetOutputDim (ctx : InferShapeContext) (name : String) : Option DDim :=
  ctx.outputDims.lookup name

end InferShapeContext

/-- The loop `for (auto dim : dims) temp.push_back(static_cast<int64_t>(dim))`. -/
def widenDims (dims : List Int) : List Int :=
  dims.foldl (fun temp dim => temp ++ [static_cast_int64 dim]) []

/-- The method `UniformRandomOp::InferShape`. The result is the outcome (normal
return or the exception thrown) together with the context as the call leaves it. -/
def InferShape (ctx : InferShapeContext) : Except Error Unit × InferShapeContext :=
  if !ctx.HasOutput "Out" then
    (.error (.EnforceNotMet "Output(Out) of UniformRandomOp should not be null."), ctx)
  else
    match ctx.attrs.GetFloat "min", ctx.attrs.GetFloat "max" with
    | .error e, _ => (.error e, ctx)
    | .ok _, .error e => (.error e, ctx)
    | .ok min, .ok max =>
      if !(decide (min < max)) then
        (.error (.EnforceNotMet "uniform_random's min must less then max"), ctx)
      else
        match ctx.attrs.GetInts "dims" with
        | .error e => (.error e, ctx)
        | .ok dims =>
          let temp := widenDims dims
          (.ok (), ctx.SetOutputDim "Out" (make_ddim temp))

/-! ## The random engine and the distribution (C++ standard library) -/

/-- The engine `std::minstd_rand`, that is
`std::linear_congruential_engine<uint_fast32_t, 48271, 0, 2147483647>`,
represented by its state. -/
structure minstd_rand where
  x : Nat
  deriving DecidableEq, Repr

namespace minstd_rand

def multiplier : Nat := 48271

def increment : Nat := 0

def modulus : Nat := 2147483647

def default_seed : Nat := 1

/-- Member `min()`: the least value the engine returns (1, the increment being 0). -/
def min : Nat := if increment = 0 then 1 else 0

/-- Member `max()`: the greatest value the engine returns. -/
def max : Nat := modulus - 1

/-- Member `seed(s)`: the state becomes `s mod m`, or 1 when both the increment
and `s` are 0 modulo `m`. -/
def seed (_engine : minstd_rand) (s : Nat) : minstd_rand :=
  if increment % modulus = 0 ∧ s % modulus = 0 then ⟨1⟩ else ⟨s % modulus⟩

/-- The default-constructed engine `std::minstd_rand engine;`. -/
def init : minstd_rand := seed ⟨0⟩ default_seed

/-- Call `engine()`: the state advances to `(a * x + c) mod m`, which is also the
value returned. -/
def next (engine : minstd_rand) : Nat × minstd_rand :=
  let x := (multiplier * engine.x + increment) % modulus
  (x, ⟨x⟩)

/-- Member `discard(z)`: the engine after `z` further calls. -/
def discard (engine : minstd_rand) : Nat → minstd_rand
  | 0 => engine
  | z + 1 => discard engine.next.2 z

end minstd_rand

/-- The arithmetic of the kernel's element type `T`, as
`std::uniform_real_distribution<T>` uses it. Nothing is assumed about the
operations, so rounding arithmetic is an instance as well as exact arithmetic.
`canonical x` is the value `std::generate_canonical` computes from the raw draw
`x` of the engine, namely `(x - min()) / (max() - min() + 1)` evaluated in `T`;
for `T = float` (24 digits) one draw of this engine suffices. -/
structure RealArith (T : Type) where
  /-- Conversion `static_cast<T>(v)` of a `float` attribute. -/
  ofFloat : ℚ → T
  canonical : Nat → T
  add : T → T → T
  sub : T → T → T
  mul : T → T → T

/-- Exact arithmetic: `T` is the field of rational numbers. -/
def RealArith.exact : RealArith ℚ where
  ofFloat := fun v => v
  canonical := fun x =>
    ((x : ℚ) - (minstd_rand.min : ℚ)) / ((minstd_rand.max : ℚ) - (minstd_rand.min : ℚ) + 1)
  add := fun u v => u + v
  sub := fun u v => u - v
  mul := fun u v => u * v

/-- The distribution object `std::uniform_real_distribution<T> dist(a, b)`. -/
structure uniform_real_distribution (T : Type) where
  a : T
  b : T

/-- Call `dist(engine)`: one draw of the engine, scaled into the range:
`(b - a) * generate_canonical(engine) + a`. -/
def uniform_real_distribution.draw {T : Type} (A : RealArith T)
    (dist : uniform_real_distribution T) (engine : minstd_rand) : T × minstd_rand :=
  let r := engine.next
  (A.add (A.mul (A.sub dist.b dist.a) (A.canonical r.1)) dist.a, r.2)

/-! ## The CPU kernel -/

/-- A tensor `framework::Tensor` as the kernel sees it: its shape and the flat
buffer that `mutable_data` hands out (with whatever it held before). -/
structure Tensor (T : Type) where
  dims : DDim
  data : List T

/-- Member `numel()`: the number of elements, the product of the extents. -/
def Tensor.numel {T : Type} (t : Tensor T) : Int := t.dims.prod

/-- The buffer holds at least `numel()` elements, as `mutable_data` guarantees. -/
def Tensor.allocated {T : Type} (t : Tensor T) : Prop := t.numel.toNat ≤ t.data.length

instance {T : Type} (t : Tensor T) : Decidable t.allocated := by
  unfold Tensor.allocated
  exact inferInstance

/-- The elements of the tensor: the first `numel()` cells of its buffer. -/
def Tensor.elements {T : Type} (t : Tensor T) : List T := t.data.take t.numel.toNat

/-- Modelled from the spec: `framework::ExecutionContext` (outside this file),
reduced to what the kernel reads: the resolved attributes and the output `Out`. -/
structure ExecutionContext (T : Type) where
  attrs : AttributeMap
  Out : Tensor T

/-- The loop `for (int64_t i = 0; i < size; ++i) data[i] = dist(engine);` with
`k` iterations left, the next index being `i`. -/
def fillLoop {T : Type} (A : RealArith T) (dist : uniform_real_distribution T) :
    Nat → Nat → minstd_rand → List T → List T
  | 0, _, _, data => data
  | k + 1, i, engine, data =>
    let r := dist.draw A engine
    fillLoop A dist k (i + 1) r.2 (data.set i r.1)

/-- The method `CPUUniformRandomKernel<T>::Compute`. `random_device` is the value the
call `std::random_device()()` yields, should it be made. The result is the
output tensor after the call. -/
def Compute {T : Type} (A : RealArith T) (random_device : Nat) (ctx : ExecutionContext T) :
    Except Error (Tensor T) :=
  let tensor := ctx.Out
  match ctx.attrs.GetInt "seed" with
  | .error e => .error e
  | .ok s =>
    let seed := static_cast_unsigned s
    let engine := minstd_rand.init
    let seed := if seed = 0 then random_device else seed
    let engine := engine.seed seed
    match ctx.attrs.GetFloat "min", ctx.attrs.GetFloat "max" with
    | .error e, _ => .error e
    | .ok _, .error e => .error e
    | .ok min, .ok max =>
      let dist : uniform_real_distribution T := ⟨A.ofFloat min, A.ofFloat max⟩
      let size := tensor.numel
      .ok { tensor with data := fillLoop A dist size.toNat 0 engine tensor.data }

/-! ### Derived notions used to state the kernel's properties -/

/-- The seed the engine is seeded with: the attribute cast to `unsigned`, or the
entropy draw when that is 0. -/
def effectiveSeed (s : Int) (random_device : Nat) : Nat :=
  if static_cast_unsigned s = 0 then random_device else static_cast_unsigned s

/-- The engine state right after `engine.seed(seed)`. -/
def seedState (seed : Nat) : Nat := (minstd_rand.init.seed seed).x

/-- The `k`-th raw draw (counting from 1) of an engine seeded with `seed`, in
closed form: `48271^k * x0 mod (2^31 - 1)`. -/
def rawDraw (seed : Nat) (k : Nat) : Nat :=
  (48271 ^ k * seedState seed) % 2147483647

/-- The value the distribution over `[a, b)` makes of the `k`-th raw draw. -/
def drawValue {T : Type} (A : RealArith T) (a b : T) (seed : Nat) (k : Nat) : T :=
  A.add (A.mul (A.sub b a) (A.canonical (rawDraw seed k))) a

/-- The first `n` values drawn from a freshly seeded engine, in order. -/
def drawSequence {T : Type} (A : RealArith T) (a b : T) (seed : Nat) (n : Nat) : List T :=
  (List.range n).map (fun i => drawValue A a b seed (i + 1))

/-! ## The attribute declarations -/

/-- The value types an attribute can be declared with. -/
inductive AttrType where
  | INT
  | FLOAT
  | INTS
  deriving DecidableEq, Repr

/-- One declaration `AddAttr<type>(name, comment)`, with the value given to
`SetDefault` if there is one. -/
structure AttributeSpec where
  name : String
  type : AttrType
  default_value : Option Attribute
  deriving DecidableEq

/-- The attribute declarations made by the constructor of `UniformRandomOpMaker`,
in order. `FP32` is the integer value of the enumerator
`framework::DataType::FP32`, which is declared outside this file. -/
def UniformRandomOpMaker (FP32 : Int) : List AttributeSpec :=
  [ { name := "dims", type := .INTS, default_value := none },
    { name := "min", type := .FLOAT, default_value := some (.float (-1)) },
    { name := "max", type := .FLOAT, default_value := some (.float 1) },
    { name := "seed", type := .INT, default_value := some (.int 0) },
    { name := "data_type", type := .INT, default_value := some (.int FP32) } ]

/-- Whether an attribute value has the declared type. -/
def Attribute.hasType : Attribute → AttrType → Bool
  | .int _, .INT => true
  | .float _, .FLOAT => true
  | .ints _, .INTS => true
  | _, _ => false

/-- Modelled from the spec: the check of one declared attribute by the
attribute checker (`framework::OpAttrChecker`, outside this file). A missing
attribute takes its default; a missing attribute without default, or a value of
the wrong type, is a `SchemaError`. -/
def AttributeSpec.check (spec : AttributeSpec) (m : AttributeMap) : Except Error AttributeMap :=
  match m.lookup spec.name with
  | some v => if v.hasType spec.type then .ok m else .error (.SchemaError spec.name)
  | none =>
    match spec.default_value with
    | some v => .ok (m ++ [(spec.name, v)])
    | none => .error (.SchemaError spec.name)

/-- Modelled from the spec: `validate(descriptor)` of the attribute schema; the
declared attributes are checked in order, defaults being filled in on the way.
The result is the resolved attribute map. -/
def validate : List AttributeSpec → AttributeMap → Except Error AttributeMap
  | [], m => .ok m
  | spec :: rest, m =>
    match spec.check m with
    | .ok m₁ => validate rest m₁
    | .error e => .error e

/-! ## The kernel registry -/

/-- The device kinds a kernel can be registered for. -/
inductive Device where
  | CPU
  | GPU
  deriving DecidableEq, Repr

/-- The key of a kernel: operator kind, device kind and element type (by its
C++ name). -/
structure KernelKey where
  op : String
  device : Device
  dtype : String
  deriving DecidableEq, Repr

/-- The kernel classes, identified by class template and element type. -/
inductive Kernel where
  | CPUUniformRandomKernel (T : String)
  | other (name : String)
  deriving DecidableEq, Repr

/-- Modelled from the spec: the process-wide kernel registry (outside this
file), a table from keys to kernels. -/
structure KernelRegistry where
  entries : List (KernelKey × Kernel)
  deriving DecidableEq

/-- Modelled from the spec: `register(key, factory)` fails with
`DuplicateKernelError` if the key is already present, and adds the entry
otherwise. -/
def KernelRegistry.register (r : KernelRegistry) (key : KernelKey) (kernel : Kernel) :
    Except Error KernelRegistry :=
  match r.entries.lookup key with
  | some _ => .error .DuplicateKernelError
  | none => .ok { entries := (key, kernel) :: r.entries }

/-- Modelled from the spec: `lookup(operator-kind, device, datatype)` returns
the kernel registered under exactly that key and fails with
`UnsupportedKernelError` if there is none. -/
def KernelRegistry.lookup (r : KernelRegistry) (op : String) (device : Device)
    (dtype : String) : Except Error Kernel :=
  match r.entries.lookup { op := op, device := device, dtype := dtype } with
  | some kernel => .ok kernel
  | none => .error .UnsupportedKernelError

/-- The statement
`REGISTER_OP_CPU_KERNEL(uniform_random, paddle::operators::CPUUniformRandomKernel<float>)`,
the only kernel registration of this file. -/
def REGISTER_OP_CPU_KERNEL_uniform_random (r : KernelRegistry) : Except Error KernelRegistry :=
  r.register { op := "uniform_random", device := .CPU, dtype := "float" }
    (.CPUUniformRandomKernel "float")

/-! ## Binary32 arithmetic

The element type of the registered kernel is `float`. A finite `float` is the
rational number it denotes; an operation whose result is not finite (an
infinity or a NaN) yields `none`. Every operation rounds its exact result to
the nearest representable value, ties to even, with 24 significant bits and
the least quantum `2^-149`. -/

/-- Rounding of a rational to the nearest integer, ties to the even one. -/
def rne (t : ℚ) : ℤ :=
  if t - ⌊t⌋ < 1 / 2 then ⌊t⌋
  else if 1 / 2 < t - ⌊t⌋ then ⌊t⌋ + 1
  else if ⌊t⌋ % 2 = 0 then ⌊t⌋ else ⌊t⌋ + 1

/-- The exponent of the quantum (unit in the last place) of binary32 at the
magnitude `x`: 24 significant bits, but no finer than `2^-149`. -/
def quantum (x : ℚ) : ℤ := max (Int.log 2 x - 23) (-149)

/-- Rounding of a non-negative rational to a whole number of quanta. -/
def roundPos (x : ℚ) : ℚ := rne (x / 2 ^ quantum x) * 2 ^ quantum x

/-- Rounding to binary32 precision, the exponent range taken as unbounded above. -/
def round32 (x : ℚ) : ℚ := if 0 ≤ x then roundPos x else -roundPos (-x)

/-- The largest finite `float`, `(2^24 - 1) * 2^104`. -/
def FLT_MAX : ℚ := 340282346638528859811704183484516925440

/-- The rational `x` is a finite `float` value. -/
def isFloat (x : ℚ) : Prop := round32 x = x ∧ |x| ≤ FLT_MAX

instance (x : ℚ) : Decidable (isFloat x) := by
  unfold isFloat
  exact inferInstance

/-- The `float` result of an operation whose exact result is `x`: the rounded
value, or `none` when that overflows the finite range. -/
def fl (x : ℚ) : Option ℚ := if |round32 x| ≤ FLT_MAX then some (round32 x) else none

/-- The arithmetic of `T = float`. `canonical` follows
`std::generate_canonical<float, 24>` of libstdc++ for this engine: the raw draw
less `min()`, converted to `float`, divided by the range `max() - min() + 1`
converted to `float`, and a quotient that reaches 1 replaced by the largest
`float` below 1. -/
def RealArith.binary32 : RealArith (Option ℚ) where
  ofFloat := fun v => fl v
  canonical := fun x =>
    (fl ((x - minstd_rand.min : ℕ) : ℚ)).bind fun s =>
      (fl ((minstd_rand.max : ℚ) - (minstd_rand.min : ℚ) + 1)).bind fun r =>
        (fl (s / r)).map fun u => if 1 ≤ u then 16777215 / 16777216 else u
  add := fun x y => x.bind fun p => y.bind fun q => fl (p + q)
  sub := fun x y => x.bind fun p => y.bind fun q => fl (p - q)
  mul := fun x y => x.bind fun p => y.bind fun q => fl (p * q)

/-- The non-negative values binary32 represents, the exponent range taken as
unbounded above: `M * 2^q` with `0 ≤ M ≤ 2^24` and `q ≥ -149`. -/
def isRep (r : ℚ) : Prop := ∃ M q : ℤ, 0 ≤ M ∧ M ≤ 2 ^ 24 ∧ -149 ≤ q ∧ r = M * 2 ^ q

/-! ## Concrete inputs -/

/-- The context of the end-to-end example: `dims = [2, 3]`, range `[0, 1)`. -/
def exampleShapeContext : InferShapeContext :=
  { outputs := ["Out"],
    attrs := [("dims", .ints [2, 3]), ("min", .float 0), ("max", .float 1),
              ("seed", .int 42)],
    outputDims := [] }

/-- A context whose range is empty (`min = max = 1`) and that already holds a
shape for `Out`. -/
def emptyRangeContext : InferShapeContext :=
  { outputs := ["Out"],
    attrs := [("dims", .ints [2, 3]), ("min", .float 1), ("max", .float 1)],
    outputDims := [("Out", [7])] }

/-- A context whose `dims` attribute has a negative entry, with a valid range
and `Out` present. -/
def negativeDimsContext : InferShapeContext :=
  { outputs := ["Out"],
    attrs := [("dims", .ints [-1, 3]), ("min", .float (-1)), ("max", .float 1)],
    outputDims := [] }

/-- An execution context over exact arithmetic with range `[0, 1)`: seed attribute
`s`, output of shape `dims` whose buffer holds `old` on entry. -/
def unitRangeContext (s : Int) (dims : List Int) (old : List ℚ) : ExecutionContext ℚ :=
  { attrs := [("dims", .ints dims), ("min", .float 0), ("max", .float 1), ("seed", .int s)],
    Out := { dims := dims, data := old } }

/-- A registry that holds a kernel of another operator only. -/
def otherOpRegistry : KernelRegistry :=
  { entries := [({ op := "gaussian_random", device := .CPU, dtype := "float" },
                 .other "GaussianRandomKernel")] }

/-- An execution context of the `float` kernel: seed attribute `s`, range
`[min, max)`, output of shape `dims` whose buffer holds `old` on entry. -/
def floatContext (s : Int) (min max : ℚ) (dims : List Int) (old : List (Option ℚ)) :
    ExecutionContext (Option ℚ) :=
  { attrs := [("dims", .ints dims), ("min", .float min), ("max", .float max), ("seed", .int s)],
    Out := { dims := dims, data := old } }

/-! ## Properties of shape inference -/

theorem static_cast_int64_of_isInt (x : Int) (h : isInt x) : static_cast_int64 x = x := by
  unfold isInt at h
  unfold static_cast_int64
  omega

theorem widenDims_eq_map (dims : List Int) : widenDims dims = dims.map static_cast_int64 := by
  unfold widenDims
  suffices h : ∀ acc : List Int,
      dims.foldl (fun temp dim => temp ++ [static_cast_int64 dim]) acc
        = acc ++ dims.map static_cast_int64 by
    simpa using h []
  induction dims with
  | nil => intro acc; simp
  | cons d ds ih => intro acc; simp [ih]

theorem widenDims_of_isInt (dims : List Int) (h : ∀ d ∈ dims, isInt d) :
    widenDims dims = dims := by
  rw [widenDims_eq_map]
  induction dims with
  | nil => rfl
  | cons d ds ih =>
    simp only [List.map_cons]
    rw [static_cast_int64_of_isInt d (h d (List.mem_cons_self d ds)),
      ih (fun e he => h e (List.mem_cons_of_mem d he))]

theorem GetOutputDim_SetOutputDim (ctx : InferShapeContext) (name : String) (dim : DDim) :
    (ctx.SetOutputDim name dim).GetOutputDim name = some dim := by
  simp [InferShapeContext.SetOutputDim, InferShapeContext.GetOutputDim, List.lookup]

theorem lookup_filter_ne (l : List (String × DDim)) (name key : String) (h : name ≠ key) :
    (l.filter (fun p => p.1 != key)).lookup name = l.lookup name := by
  induction l with
  | nil => rfl
  | cons p ps ih =>
    obtain ⟨k, v⟩ := p
    rw [List.filter_cons, List.lookup_cons]
    by_cases hp : k = key
    · have h1 : (k != key) = false := by simp [hp]
      have h2 : (name == k) = false := by rw [hp]; simpa using h
      simp only [h1, h2]
      simpa using ih
    · have h1 : (k != key) = true := by simpa using hp
      simp only [h1, if_true, List.lookup_cons, ih]

theorem GetOutputDim_SetOutputDim_ne (ctx : InferShapeContext) (name key : String)
    (dim : DDim) (h : name ≠ key) :
    (ctx.SetOutputDim key dim).GetOutputDim name = ctx.GetOutputDim name := by
  have h1 : (name == key) = false := by simpa using h
  simp only [InferShapeContext.SetOutputDim, InferShapeContext.GetOutputDim]
  rw [List.lookup_cons, h1]
  exact lookup_filter_ne ctx.outputDims name key h

/-- What `InferShape` does once both enforces pass: it returns normally and the
context differs from the incoming one only by the shape recorded for `Out`. -/
theorem InferShape_pass (ctx : InferShapeContext) (min max : ℚ) (dims : List Int)
    (hout : ctx.HasOutput "Out" = true)
    (hmin : ctx.attrs.GetFloat "min" = .ok min)
    (hmax : ctx.attrs.GetFloat "max" = .ok max)
    (hlt : min < max)
    (hdims : ctx.attrs.GetInts "dims" = .ok dims) :
    InferShape ctx = (.ok (), ctx.SetOutputDim "Out" (widenDims dims)) := by
  simp [InferShape, hout, hmin, hmax, hlt, hdims, make_ddim]

/-- What `InferShape` does when the range enforce fails. -/
theorem InferShape_range_fail (ctx : InferShapeContext) (min max : ℚ)
    (hout : ctx.HasOutput "Out" = true)
    (hmin : ctx.attrs.GetFloat "min" = .ok min)
    (hmax : ctx.attrs.GetFloat "max" = .ok max)
    (hge : max ≤ min) :
    InferShape ctx
      = (.error (.EnforceNotMet "uniform_random's min must less then max"), ctx) := by
  simp [InferShape, hout, hmin, hmax, not_lt.mpr hge]

/-- C1: for a `dims` attribute of non-negative `int` values, a range with
`min < max` and the output `Out` present, `InferShape` returns normally and the
shape recorded for `Out` is exactly `dims` (same length, order and values after
the widening to `int64_t`); nothing else in the context changes. -/
theorem C1_InferShape_sets_dims (ctx : InferShapeContext) (min max : ℚ) (dims : List Int)
    (hout : ctx.HasOutput "Out" = true)
    (hmin : ctx.attrs.GetFloat "min" = .ok min)
    (hmax : ctx.attrs.GetFloat "max" = .ok max)
    (hlt : min < max)
    (hdims : ctx.attrs.GetInts "dims" = .ok dims)
    (hnonneg : ∀ d ∈ dims, isInt d ∧ 0 ≤ d) :
    (InferShape ctx).1 = .ok ()
      ∧ (InferShape ctx).2.GetOutputDim "Out" = some dims
      ∧ (InferShape ctx).2.attrs = ctx.attrs
      ∧ (InferShape ctx).2.outputs = ctx.outputs
      ∧ ∀ name, name ≠ "Out" →
          (InferShape ctx).2.GetOutputDim name = ctx.GetOutputDim name := by
  rw [InferShape_pass ctx min max dims hout hmin hmax hlt hdims,
    widenDims_of_isInt dims (fun d hd => (hnonneg d hd).1)]
  refine ⟨rfl, GetOutputDim_SetOutputDim _ _ _, rfl, rfl, ?_⟩
  intro name hname
  exact GetOutputDim_SetOutputDim_ne ctx name "Out" _ hname

theorem C1_InferShape_sets_dims_witness :
    (InferShape exampleShapeContext).1 = .ok ()
      ∧ (InferShape exampleShapeContext).2.GetOutputDim "Out" = some [2, 3]
      ∧ (InferShape exampleShapeContext).2.attrs = exampleShapeContext.attrs
      ∧ (InferShape exampleShapeContext).2.outputs = exampleShapeContext.outputs
      ∧ ∀ name, name ≠ "Out" →
          (InferShape exampleShapeContext).2.GetOutputDim name
            = exampleShapeContext.GetOutputDim name :=
  C1_InferShape_sets_dims exampleShapeContext 0 1 [2, 3] rfl rfl rfl
    (by norm_num) rfl (by decide)

/-- C2: when the attributes hold `min >= max` (equality included), `InferShape`
fails, and it leaves the context as it found it: no shape is recorded for `Out`,
whatever `dims` is. When `Out` is present the failure is the range enforce. -/
theorem C2_InferShape_rejects_empty_range (ctx : InferShapeContext) (min max : ℚ)
    (hmin : ctx.attrs.GetFloat "min" = .ok min)
    (hmax : ctx.attrs.GetFloat "max" = .ok max)
    (hge : max ≤ min) :
    (∃ e, (InferShape ctx).1 = .error e)
      ∧ (InferShape ctx).2 = ctx
      ∧ (InferShape ctx).2.GetOutputDim "Out" = ctx.GetOutputDim "Out"
      ∧ (ctx.HasOutput "Out" = true →
          (InferShape ctx).1
            = .error (.EnforceNotMet "uniform_random's min must less then max")) := by
  by_cases hout : ctx.HasOutput "Out" = true
  · rw [InferShape_range_fail ctx min max hout hmin hmax hge]
    exact ⟨⟨_, rfl⟩, rfl, rfl, fun _ => rfl⟩
  · have h : InferShape ctx
        = (.error (.EnforceNotMet "Output(Out) of UniformRandomOp should not be null."),
            ctx) := by
      simp [InferShape, hout]
    rw [h]
    exact ⟨⟨_, rfl⟩, rfl, rfl, fun h' => absurd h' hout⟩

theorem C2_InferShape_rejects_empty_range_witness :
    (∃ e, (InferShape emptyRangeContext).1 = .error e)
      ∧ (InferShape emptyRangeContext).2 = emptyRangeContext
      ∧ (InferShape emptyRangeContext).2.GetOutputDim "Out"
          = emptyRangeContext.GetOutputDim "Out"
      ∧ (emptyRangeContext.HasOutput "Out" = true →
          (InferShape emptyRangeContext).1
            = .error (.EnforceNotMet "uniform_random's min must less then max")) :=
  C2_InferShape_rejects_empty_range emptyRangeContext 1 1 rfl rfl (le_refl 1)

/-- C3 (as stated) fails: with `dims = [-1, 3]`, `min = -1 < max = 1` and `Out`
present, `InferShape` returns normally and records the shape `[-1, 3]`. -/
theorem C3_negative_dims_accepted :
    negativeDimsContext.HasOutput "Out" = true
      ∧ negativeDimsContext.attrs.GetInts "dims" = .ok [-1, 3]
      ∧ negativeDimsContext.attrs.GetFloat "min" = .ok (-1)
      ∧ negativeDimsContext.attrs.GetFloat "max" = .ok 1
      ∧ (InferShape negativeDimsContext).1 = .ok ()
      ∧ (InferShape negativeDimsContext).2.GetOutputDim "Out" = some [-1, 3] := by
  have h := InferShape_pass negativeDimsContext (-1) 1 [-1, 3] rfl rfl rfl (by norm_num) rfl
  rw [h]
  exact ⟨rfl, rfl, rfl, rfl, rfl, by decide⟩

/-- C3 (amended): `InferShape` performs no sign check on `dims`. For a `dims`
attribute of `int` values with at least one negative entry, `min < max` and `Out`
present, it returns normally and records `dims` verbatim, negative entries
included, as the shape of `Out`. -/
theorem C3_InferShape_keeps_negative_dims (ctx : InferShapeContext) (min max : ℚ)
    (dims : List Int)
    (hout : ctx.HasOutput "Out" = true)
    (hmin : ctx.attrs.GetFloat "min" = .ok min)
    (hmax : ctx.attrs.GetFloat "max" = .ok max)
    (hlt : min < max)
    (hdims : ctx.attrs.GetInts "dims" = .ok dims)
    (hint : ∀ d ∈ dims, isInt d)
    (_hneg : ∃ d ∈ dims, d < 0) :
    (InferShape ctx).1 = .ok ()
      ∧ (InferShape ctx).2.GetOutputDim "Out" = some dims := by
  rw [InferShape_pass ctx min max dims hout hmin hmax hlt hdims,
    widenDims_of_isInt dims hint]
  exact ⟨rfl, GetOutputDim_SetOutputDim _ _ _⟩

theorem C3_InferShape_keeps_negative_dims_witness :
    (InferShape negativeDimsContext).1 = .ok ()
      ∧ (InferShape negativeDimsContext).2.GetOutputDim "Out" = some [-1, 3] :=
  C3_InferShape_keeps_negative_dims negativeDimsContext (-1) 1 [-1, 3] rfl rfl rfl
    (by norm_num) rfl (by decide) ⟨-1, by decide, by decide⟩

/-! ## The engine -/

theorem seedState_eq (seed : Nat) :
    seedState seed = if seed % 2147483647 = 0 then 1 else seed % 2147483647 := by
  simp [seedState, minstd_rand.seed, minstd_rand.increment, minstd_rand.modulus]
  split <;> rfl

theorem seedState_pos (seed : Nat) : 0 < seedState seed := by
  rw [seedState_eq]
  split <;> omega

theorem seedState_lt (seed : Nat) : seedState seed < 2147483647 := by
  rw [seedState_eq]
  split <;> omega

theorem seed_x (engine : minstd_rand) (seed : Nat) : (engine.seed seed).x = seedState seed := by
  simp [seedState, minstd_rand.seed]

theorem next_fst (engine : minstd_rand) :
    engine.next.1 = (48271 * engine.x) % 2147483647 := by
  simp [minstd_rand.next, minstd_rand.multiplier, minstd_rand.increment, minstd_rand.modulus]

theorem next_snd_x (engine : minstd_rand) :
    engine.next.2.x = (48271 * engine.x) % 2147483647 := by
  simp [minstd_rand.next, minstd_rand.multiplier, minstd_rand.increment, minstd_rand.modulus]

/-- The state after `z` calls, in closed form. -/
theorem discard_next_fst (engine : minstd_rand) (z : Nat) :
    (engine.discard z).next.1 = (48271 ^ (z + 1) * engine.x) % 2147483647 := by
  induction z generalizing engine with
  | zero => simp [minstd_rand.discard, next_fst]
  | succ z ih =>
    rw [minstd_rand.discard, ih, next_snd_x, Nat.mul_mod_mod, pow_succ (48271 : Nat) (z + 1),
      Nat.mul_assoc]

theorem draw_discard {T : Type} (A : RealArith T) (dist : uniform_real_distribution T)
    (engine : minstd_rand) (seed : Nat) (z : Nat) :
    (dist.draw A ((engine.seed seed).discard z)).1 = drawValue A dist.a dist.b seed (z + 1) := by
  simp only [uniform_real_distribution.draw, drawValue, rawDraw, discard_next_fst, seed_x]

theorem draw_snd {T : Type} (A : RealArith T) (dist : uniform_real_distribution T)
    (engine : minstd_rand) : (dist.draw A engine).2 = engine.next.2 := rfl

/-! ## The fill loop -/

theorem take_succ_set {T : Type} (data : List T) (i : Nat) (v : T) (h : i < data.length) :
    (data.set i v).take (i + 1) = data.take i ++ [v] := by
  induction data generalizing i with
  | nil => simp at h
  | cons d ds ih =>
    cases i with
    | zero => simp
    | succ i =>
      have h' : i < ds.length := by simpa using h
      simp [List.set, List.take, ih i h']

theorem drop_set_lt {T : Type} (data : List T) (i j : Nat) (v : T) (h : i < j) :
    (data.set i v).drop j = data.drop j := by
  induction data generalizing i j with
  | nil => simp
  | cons d ds ih =>
    cases j with
    | zero => omega
    | succ j =>
      cases i with
      | zero => simp
      | succ i => simp [List.set, ih i j (by omega)]

/-- The loop overwrites the cells `i, …, i + k - 1` with the successive draws and
leaves every other cell alone. -/
theorem fillLoop_eq {T : Type} (A : RealArith T) (dist : uniform_real_distribution T)
    (k i : Nat) (engine : minstd_rand) (data : List T) (h : i + k ≤ data.length) :
    fillLoop A dist k i engine data
      = data.take i ++ (List.range k).map (fun j => (dist.draw A (engine.discard j)).1)
          ++ data.drop (i + k) := by
  induction k generalizing i engine data with
  | zero => simp [fillLoop]
  | succ k ih =>
    have hi : i < data.length := by omega
    rw [fillLoop, ih (i + 1) _ _ (by rw [List.length_set]; omega), take_succ_set data i _ hi,
      drop_set_lt data i (i + 1 + k) _ (by omega), List.range_succ_eq_map, List.map_cons,
      List.map_map]
    have e : i + 1 + k = i + (k + 1) := by omega
    rw [e, draw_snd]
    simp [minstd_rand.discard, Function.comp_def]

/-- The kernel's result in closed form: the tensor keeps its shape, its first
`numel()` cells hold the draw sequence of the effective seed, the rest of the
buffer is as before. -/
theorem Compute_eq {T : Type} (A : RealArith T) (random_device : Nat)
    (ctx : ExecutionContext T) (s : Int) (min max : ℚ)
    (hseed : ctx.attrs.GetInt "seed" = .ok s)
    (hmin : ctx.attrs.GetFloat "min" = .ok min)
    (hmax : ctx.attrs.GetFloat "max" = .ok max)
    (halloc : ctx.Out.allocated) :
    Compute A random_device ctx
      = .ok { dims := ctx.Out.dims,
              data := drawSequence A (A.ofFloat min) (A.ofFloat max)
                  (effectiveSeed s random_device) ctx.Out.numel.toNat
                ++ ctx.Out.data.drop ctx.Out.numel.toNat } := by
  unfold Tensor.allocated at halloc
  simp only [Compute, hseed, hmin, hmax]
  rw [fillLoop_eq A _ _ 0 _ _ (by omega)]
  simp only [List.take_zero, List.nil_append, Nat.zero_add, draw_discard]
  rfl


/-! ## Properties of the kernel -/

theorem drawSequence_length {T : Type} (A : RealArith T) (a b : T) (seed n : Nat) :
    (drawSequence A a b seed n).length = n := by
  simp [drawSequence]

theorem drawSequence_take {T : Type} (A : RealArith T) (a b : T) (seed n m : Nat)
    (h : n ≤ m) : (drawSequence A a b seed m).take n = drawSequence A a b seed n := by
  unfold drawSequence
  rw [← List.map_take, List.take_range, Nat.min_eq_left h]

theorem drawSequence_getElem? {T : Type} (A : RealArith T) (a b : T) (seed n i : Nat)
    (h : i < n) : (drawSequence A a b seed n)[i]? = some (drawValue A a b seed (i + 1)) := by
  unfold drawSequence
  rw [List.getElem?_map, List.getElem?_range h]
  rfl

/-- The draw sequence depends on the seed through the engine state only. -/
theorem drawSequence_congr {T : Type} (A : RealArith T) (a b : T) (seed₁ seed₂ n : Nat)
    (h : seedState seed₁ = seedState seed₂) :
    drawSequence A a b seed₁ n = drawSequence A a b seed₂ n := by
  simp only [drawSequence, drawValue, rawDraw, h]

/-- The elements of the tensor the kernel returns. -/
theorem elements_Compute {T : Type} (A : RealArith T) (random_device : Nat)
    (ctx : ExecutionContext T) (s : Int) (min max : ℚ)
    (hseed : ctx.attrs.GetInt "seed" = .ok s)
    (hmin : ctx.attrs.GetFloat "min" = .ok min)
    (hmax : ctx.attrs.GetFloat "max" = .ok max)
    (halloc : ctx.Out.allocated) :
    ∃ t, Compute A random_device ctx = .ok t
      ∧ t.elements = drawSequence A (A.ofFloat min) (A.ofFloat max)
          (effectiveSeed s random_device) ctx.Out.numel.toNat := by
  refine ⟨_, Compute_eq A random_device ctx s min max hseed hmin hmax halloc, ?_⟩
  simp only [Tensor.elements, Tensor.numel]
  rw [List.take_append_of_le_length (by rw [drawSequence_length]),
    List.take_of_length_le (by rw [drawSequence_length])]

theorem static_cast_unsigned_eq_zero (s : Int) (hs : isInt s) :
    static_cast_unsigned s = 0 ↔ s = 0 := by
  unfold isInt at hs
  unfold static_cast_unsigned
  omega

theorem effectiveSeed_of_ne_zero (s : Int) (hs : isInt s) (hne : s ≠ 0) (random_device : Nat) :
    effectiveSeed s random_device = static_cast_unsigned s := by
  unfold effectiveSeed
  rw [if_neg (fun h => hne ((static_cast_unsigned_eq_zero s hs).mp h))]

/-- C4: with a non-zero seed attribute, two invocations with the same seed, the
same range and the same element count write the same element sequence, whatever
the entropy source yields and whatever the output buffers held before; the
sequence is the draw sequence determined by (seed, min, max, element count). -/
theorem C4_Compute_deterministic {T : Type} (A : RealArith T) (e₁ e₂ : Nat)
    (ctx₁ ctx₂ : ExecutionContext T) (s : Int) (min max : ℚ)
    (hs : isInt s) (hne : s ≠ 0)
    (hseed₁ : ctx₁.attrs.GetInt "seed" = .ok s)
    (hmin₁ : ctx₁.attrs.GetFloat "min" = .ok min)
    (hmax₁ : ctx₁.attrs.GetFloat "max" = .ok max)
    (halloc₁ : ctx₁.Out.allocated)
    (hseed₂ : ctx₂.attrs.GetInt "seed" = .ok s)
    (hmin₂ : ctx₂.attrs.GetFloat "min" = .ok min)
    (hmax₂ : ctx₂.attrs.GetFloat "max" = .ok max)
    (halloc₂ : ctx₂.Out.allocated)
    (hn : ctx₁.Out.numel = ctx₂.Out.numel) :
    ∃ t₁ t₂, Compute A e₁ ctx₁ = .ok t₁ ∧ Compute A e₂ ctx₂ = .ok t₂
      ∧ t₁.elements = t₂.elements
      ∧ t₁.elements = drawSequence A (A.ofFloat min) (A.ofFloat max)
          (static_cast_unsigned s) ctx₁.Out.numel.toNat := by
  obtain ⟨t₁, h₁, el₁⟩ := elements_Compute A e₁ ctx₁ s min max hseed₁ hmin₁ hmax₁ halloc₁
  obtain ⟨t₂, h₂, el₂⟩ := elements_Compute A e₂ ctx₂ s min max hseed₂ hmin₂ hmax₂ halloc₂
  rw [effectiveSeed_of_ne_zero s hs hne] at el₁ el₂
  refine ⟨t₁, t₂, h₁, h₂, ?_, el₁⟩
  rw [el₁, el₂, hn]

theorem C4_Compute_deterministic_witness :
    ∃ t₁ t₂, Compute RealArith.exact 7 (unitRangeContext 42 [2, 3] [9, 9, 9, 9, 9, 9]) = .ok t₁
      ∧ Compute RealArith.exact 11 (unitRangeContext 42 [6] [0, 1, 2, 3, 4, 5, 6]) = .ok t₂
      ∧ t₁.elements = t₂.elements
      ∧ t₁.elements = drawSequence RealArith.exact (RealArith.exact.ofFloat 0)
          (RealArith.exact.ofFloat 1) (static_cast_unsigned 42)
          (unitRangeContext 42 [2, 3] [9, 9, 9, 9, 9, 9]).Out.numel.toNat :=
  C4_Compute_deterministic RealArith.exact 7 11 (unitRangeContext 42 [2, 3] [9, 9, 9, 9, 9, 9])
    (unitRangeContext 42 [6] [0, 1, 2, 3, 4, 5, 6]) 42 0 1 (by decide) (by decide)
    rfl rfl rfl (by decide) rfl rfl rfl (by decide) (by decide)


/-- C10: the kernel writes exactly `n = numel()` cells: it returns a tensor of
the same shape whose cell `i < n` holds the `(i+1)`-th successive draw of the
freshly seeded engine (the draw made after `i` earlier ones) and whose other
cells are untouched. Consequently, for
the same effective seed and range, the elements written for `n` cells are the
first `n` of the elements written for any `n' ≥ n` cells, and for `n = 0` the
tensor is returned as it was. -/
theorem C10_Compute_fills_in_order {T : Type} (A : RealArith T) (e e₂ : Nat)
    (ctx ctx₂ : ExecutionContext T) (s s₂ : Int) (min max : ℚ)
    (hseed : ctx.attrs.GetInt "seed" = .ok s)
    (hmin : ctx.attrs.GetFloat "min" = .ok min)
    (hmax : ctx.attrs.GetFloat "max" = .ok max)
    (halloc : ctx.Out.allocated)
    (hseed₂ : ctx₂.attrs.GetInt "seed" = .ok s₂)
    (hmin₂ : ctx₂.attrs.GetFloat "min" = .ok min)
    (hmax₂ : ctx₂.attrs.GetFloat "max" = .ok max)
    (halloc₂ : ctx₂.Out.allocated)
    (heff : effectiveSeed s₂ e₂ = effectiveSeed s e)
    (hle : ctx.Out.numel.toNat ≤ ctx₂.Out.numel.toNat) :
    ∃ t t₂, Compute A e ctx = .ok t ∧ Compute A e₂ ctx₂ = .ok t₂
      ∧ t.dims = ctx.Out.dims
      ∧ t.data.length = ctx.Out.data.length
      ∧ (∀ i, i < ctx.Out.numel.toNat →
          t.data[i]? = some (uniform_real_distribution.draw A
            ⟨A.ofFloat min, A.ofFloat max⟩
            ((minstd_rand.init.seed (effectiveSeed s e)).discard i)).1)
      ∧ (∀ i, ctx.Out.numel.toNat ≤ i → t.data[i]? = ctx.Out.data[i]?)
      ∧ t.elements = t₂.elements.take ctx.Out.numel.toNat
      ∧ (ctx.Out.numel.toNat = 0 → t = ctx.Out) := by
  obtain ⟨t₂, h₂, el₂⟩ := elements_Compute A e₂ ctx₂ s₂ min max hseed₂ hmin₂ hmax₂ halloc₂
  obtain ⟨t, h, el⟩ := elements_Compute A e ctx s min max hseed hmin hmax halloc
  have hc := Compute_eq A e ctx s min max hseed hmin hmax halloc
  rw [h] at hc
  have ht : t = { dims := ctx.Out.dims,
                  data := drawSequence A (A.ofFloat min) (A.ofFloat max)
                      (effectiveSeed s e) ctx.Out.numel.toNat
                    ++ ctx.Out.data.drop ctx.Out.numel.toNat } := by
    injection hc
  have hlen := drawSequence_length A (A.ofFloat min) (A.ofFloat max) (effectiveSeed s e)
    ctx.Out.numel.toNat
  unfold Tensor.allocated at halloc
  refine ⟨t, t₂, h, h₂, ?_, ?_, ?_, ?_, ?_, ?_⟩
  · rw [ht]
  · rw [ht]
    simp only [List.length_append, List.length_drop, hlen]
    omega
  · intro i hi
    rw [ht]
    simp only
    rw [List.getElem?_append_left (by rw [hlen]; exact hi), drawSequence_getElem? _ _ _ _ _ _ hi,
      draw_discard]
  · intro i hi
    rw [ht]
    simp only
    rw [List.getElem?_append_right (by rw [hlen]; exact hi), List.getElem?_drop, hlen]
    congr 1
    omega
  · rw [el, el₂, heff, drawSequence_take _ _ _ _ _ _ hle]
  · intro h0
    rw [ht, h0]
    cases hO : ctx.Out
    simp [drawSequence]

theorem C10_Compute_fills_in_order_witness :
    ∃ t t₂, Compute RealArith.exact 5 (unitRangeContext 42 [2] [9, 9, 9]) = .ok t
      ∧ Compute RealArith.exact 42 (unitRangeContext 0 [2, 3] [8, 8, 8, 8, 8, 8]) = .ok t₂
      ∧ t.dims = (unitRangeContext 42 [2] [9, 9, 9]).Out.dims
      ∧ t.data.length = (unitRangeContext 42 [2] [9, 9, 9]).Out.data.length
      ∧ (∀ i, i < (unitRangeContext 42 [2] [9, 9, 9]).Out.numel.toNat →
          t.data[i]? = some (uniform_real_distribution.draw RealArith.exact
            ⟨RealArith.exact.ofFloat 0, RealArith.exact.ofFloat 1⟩
            ((minstd_rand.init.seed (effectiveSeed 42 5)).discard i)).1)
      ∧ (∀ i, (unitRangeContext 42 [2] [9, 9, 9]).Out.numel.toNat ≤ i →
          t.data[i]? = (unitRangeContext 42 [2] [9, 9, 9]).Out.data[i]?)
      ∧ t.elements = t₂.elements.take (unitRangeContext 42 [2] [9, 9, 9]).Out.numel.toNat
      ∧ ((unitRangeContext 42 [2] [9, 9, 9]).Out.numel.toNat = 0 →
          t = (unitRangeContext 42 [2] [9, 9, 9]).Out) :=
  C10_Compute_fills_in_order RealArith.exact 5 42 (unitRangeContext 42 [2] [9, 9, 9])
    (unitRangeContext 0 [2, 3] [8, 8, 8, 8, 8, 8]) 42 0 0 1 rfl rfl rfl (by decide)
    rfl rfl rfl (by decide) (by decide) (by decide)


/-! ## Seeds and engine states -/

theorem coprime_multiplier_pow (k : Nat) : Nat.Coprime 2147483647 (48271 ^ k) :=
  Nat.Coprime.pow_right k (by norm_num)

/-- Engines started in different states never return the same raw draw. -/
theorem rawDraw_ne (seed₁ seed₂ k : Nat) (h : seedState seed₁ ≠ seedState seed₂) :
    rawDraw seed₁ k ≠ rawDraw seed₂ k := by
  intro heq
  unfold rawDraw at heq
  have hmod : seedState seed₁ % 2147483647 = seedState seed₂ % 2147483647 :=
    Nat.ModEq.cancel_left_of_coprime (coprime_multiplier_pow k) heq
  rw [Nat.mod_eq_of_lt (seedState_lt seed₁), Nat.mod_eq_of_lt (seedState_lt seed₂)] at hmod
  exact h hmod

/-- In exact arithmetic the distribution maps different raw draws to different
values, the range being non-empty. -/
theorem drawValue_exact_ne (a b : ℚ) (seed₁ seed₂ k : Nat) (hab : a < b)
    (h : rawDraw seed₁ k ≠ rawDraw seed₂ k) :
    drawValue RealArith.exact a b seed₁ k ≠ drawValue RealArith.exact a b seed₂ k := by
  intro heq
  simp only [drawValue, RealArith.exact, minstd_rand.min, minstd_rand.max,
    minstd_rand.increment, minstd_rand.modulus] at heq
  have hba : b - a ≠ 0 := sub_ne_zero.mpr (ne_of_gt hab)
  have h1 : ((rawDraw seed₁ k : ℚ)) = (rawDraw seed₂ k : ℚ) := by
    have h2 := add_right_cancel heq
    have h3 := mul_left_cancel₀ hba h2
    norm_num at h3
    linarith
  exact h (by exact_mod_cast h1)

theorem rawDraw_lt (seed k : Nat) : rawDraw seed k < 2147483647 :=
  Nat.mod_lt _ (by norm_num)

/-- The engine never returns 0: its raw draws lie between `min()` and `max()`. -/
theorem rawDraw_pos (seed k : Nat) : 0 < rawDraw seed k := by
  rcases Nat.eq_zero_or_pos (rawDraw seed k) with h | h
  · exfalso
    unfold rawDraw at h
    have hmod : seedState seed % 2147483647 = 0 % 2147483647 :=
      Nat.ModEq.cancel_left_of_coprime (coprime_multiplier_pow k)
        (by rw [Nat.ModEq, h, Nat.mul_zero])
    rw [Nat.mod_eq_of_lt (seedState_lt seed)] at hmod
    have := seedState_pos seed
    omega
  · exact h

/-- In exact arithmetic, with `a < b`, every value drawn lies in `[a, b)`: there
the upper bound is strict. -/
theorem drawValue_exact_bounds (a b : ℚ) (seed k : Nat) (hab : a < b) :
    a ≤ drawValue RealArith.exact a b seed k ∧ drawValue RealArith.exact a b seed k < b := by
  have hlt := rawDraw_lt seed k
  have hpos := rawDraw_pos seed k
  simp only [drawValue, RealArith.exact, minstd_rand.min, minstd_rand.max,
    minstd_rand.increment, minstd_rand.modulus]
  have hba : 0 < b - a := sub_pos.mpr hab
  have hx1 : (1 : ℚ) ≤ (rawDraw seed k : ℚ) := by exact_mod_cast hpos
  have hx2 : (rawDraw seed k : ℚ) ≤ 2147483646 := by
    have : rawDraw seed k ≤ 2147483646 := by omega
    exact_mod_cast this
  norm_num
  have hu0 : 0 ≤ ((rawDraw seed k : ℚ) - 1) / 2147483646 := by
    apply div_nonneg <;> linarith
  have hu1 : ((rawDraw seed k : ℚ) - 1) / 2147483646 < 1 := by
    rw [div_lt_one (by norm_num)]
    linarith
  constructor
  · nlinarith [mul_nonneg hba.le hu0]
  · nlinarith [mul_lt_mul_of_pos_left hu1 hba]

theorem drawSequence_exact_ne (a b : ℚ) (seed₁ seed₂ n : Nat) (hab : a < b) (hn : 0 < n)
    (h : seedState seed₁ ≠ seedState seed₂) :
    drawSequence RealArith.exact a b seed₁ n ≠ drawSequence RealArith.exact a b seed₂ n := by
  intro heq
  have h0 := congrArg (fun l => l[0]?) heq
  simp only [drawSequence_getElem? _ _ _ _ _ _ hn] at h0
  exact drawValue_exact_ne a b seed₁ seed₂ 1 hab (rawDraw_ne seed₁ seed₂ 1 h)
    (Option.some.inj h0)


/-! ## The attribute declarations and the registration -/

/-- The attribute map a descriptor supplying only `dims` resolves to. -/
theorem validate_dims_only (FP32 : Int) (dims : List Int) :
    validate (UniformRandomOpMaker FP32) [("dims", .ints dims)]
      = .ok [("dims", .ints dims), ("min", .float (-1)), ("max", .float 1),
             ("seed", .int 0), ("data_type", .int FP32)] := by
  simp [validate, UniformRandomOpMaker, AttributeSpec.check, List.lookup, Attribute.hasType]

/-- C7: the maker declares exactly `dims` (no default), `min` (default -1.0),
`max` (default 1.0), `seed` (default 0) and `data_type` (default FP32). A
descriptor without `dims` is rejected; a descriptor supplying only `dims`
resolves to `min = -1.0`, `max = 1.0`, `seed = 0`, `data_type = FP32`, and with
these attributes the `min < max` enforce of `InferShape` passes. -/
theorem C7_defaults_resolved (FP32 : Int) (dims : List Int) (outputs : List String)
    (outputDims : List (String × DDim)) :
    UniformRandomOpMaker FP32
        = [⟨"dims", .INTS, none⟩, ⟨"min", .FLOAT, some (.float (-1))⟩,
           ⟨"max", .FLOAT, some (.float 1)⟩, ⟨"seed", .INT, some (.int 0)⟩,
           ⟨"data_type", .INT, some (.int FP32)⟩]
      ∧ validate (UniformRandomOpMaker FP32) [] = .error (.SchemaError "dims")
      ∧ ∃ attrs, validate (UniformRandomOpMaker FP32) [("dims", .ints dims)] = .ok attrs
          ∧ attrs.GetInts "dims" = .ok dims
          ∧ attrs.GetFloat "min" = .ok (-1)
          ∧ attrs.GetFloat "max" = .ok 1
          ∧ attrs.GetInt "seed" = .ok 0
          ∧ attrs.GetInt "data_type" = .ok FP32
          ∧ attrs.length = 5
          ∧ (InferShape ⟨"Out" :: outputs, attrs, outputDims⟩).1 = .ok () := by
  refine ⟨rfl, rfl, _, validate_dims_only FP32 dims, rfl, rfl, rfl, rfl, rfl, rfl, ?_⟩
  rw [InferShape_pass
    ⟨"Out" :: outputs,
      [("dims", .ints dims), ("min", .float (-1)), ("max", .float 1), ("seed", .int 0),
       ("data_type", .int FP32)], outputDims⟩ (-1) 1 dims
    (by simp [InferShapeContext.HasOutput]) rfl rfl (by norm_num) rfl]

/-- C9: starting from a registry without kernels of `uniform_random`, the
registration of this file succeeds; afterwards the key
(`uniform_random`, CPU, `float`) yields `CPUUniformRandomKernel<float>`, it is
the only entry of that operator kind, and looking `uniform_random` up with any
other device or element type fails with `UnsupportedKernelError`. -/
theorem C9_only_cpu_float_kernel (r : KernelRegistry)
    (hr : ∀ p ∈ r.entries, p.1.op ≠ "uniform_random") :
    ∃ r₁, REGISTER_OP_CPU_KERNEL_uniform_random r = .ok r₁
      ∧ r₁.lookup "uniform_random" .CPU "float" = .ok (.CPUUniformRandomKernel "float")
      ∧ (∀ p ∈ r₁.entries, p.1.op = "uniform_random" →
          p = (⟨"uniform_random", .CPU, "float"⟩, .CPUUniformRandomKernel "float"))
      ∧ ∀ device dtype, ¬ (device = .CPU ∧ dtype = "float") →
          r₁.lookup "uniform_random" device dtype = .error .UnsupportedKernelError := by
  have hnone : ∀ device dtype,
      r.entries.lookup { op := "uniform_random", device := device, dtype := dtype } = none := by
    intro device dtype
    rw [List.lookup_eq_none_iff]
    intro p hp
    rw [bne_iff_ne]
    intro hk
    exact hr p hp (by rw [← hk])
  refine ⟨{ entries := (⟨"uniform_random", .CPU, "float"⟩, .CPUUniformRandomKernel "float")
      :: r.entries }, ?_, ?_, ?_, ?_⟩
  · simp only [REGISTER_OP_CPU_KERNEL_uniform_random, KernelRegistry.register, hnone]
  · simp [KernelRegistry.lookup, List.lookup]
  · intro p hp hop
    rcases List.mem_cons.mp hp with h | h
    · exact h
    · exact absurd hop (hr p h)
  · intro device dtype hne
    have hkey : (({ op := "uniform_random", device := device, dtype := dtype } : KernelKey)
        == ⟨"uniform_random", .CPU, "float"⟩) = false := by
      rw [beq_eq_false_iff_ne]
      intro h
      injection h with _ h2 h3
      exact hne ⟨h2, h3⟩
    simp only [KernelRegistry.lookup, List.lookup_cons, hkey, hnone]

theorem C9_only_cpu_float_kernel_witness :
    ∃ r₁, REGISTER_OP_CPU_KERNEL_uniform_random otherOpRegistry = .ok r₁
      ∧ r₁.lookup "uniform_random" .CPU "float" = .ok (.CPUUniformRandomKernel "float")
      ∧ (∀ p ∈ r₁.entries, p.1.op = "uniform_random" →
          p = (⟨"uniform_random", .CPU, "float"⟩, .CPUUniformRandomKernel "float"))
      ∧ ∀ device dtype, ¬ (device = .CPU ∧ dtype = "float") →
          r₁.lookup "uniform_random" device dtype = .error .UnsupportedKernelError :=
  C9_only_cpu_float_kernel otherOpRegistry (by decide)


/-! ## Rounding to binary32 -/

theorem roundPos_def (x : ℚ) : roundPos x = rne (x / 2 ^ quantum x) * 2 ^ quantum x := rfl

theorem rne_intCast (n : ℤ) : rne (n : ℚ) = n := by
  simp [rne]

theorem floor_le_rne (t : ℚ) : ⌊t⌋ ≤ rne t := by
  unfold rne
  split_ifs <;> omega

theorem rne_le_floor_add_one (t : ℚ) : rne t ≤ ⌊t⌋ + 1 := by
  unfold rne
  split_ifs <;> omega

theorem rne_mono {s t : ℚ} (h : s ≤ t) : rne s ≤ rne t := by
  have hfl : ⌊s⌋ ≤ ⌊t⌋ := Int.floor_mono h
  rcases lt_or_eq_of_le hfl with hlt | heq
  · have h1 := rne_le_floor_add_one s
    have h2 := floor_le_rne t
    omega
  · unfold rne
    rw [heq]
    have hs : s - ⌊t⌋ ≤ t - ⌊t⌋ := by linarith
    split_ifs <;> first | omega | (exfalso; linarith)

theorem rne_of_lt_half {t : ℚ} (k : ℤ) (h1 : (k : ℚ) ≤ t) (h2 : t < k + 1 / 2) : rne t = k := by
  have hf : ⌊t⌋ = k := by
    rw [Int.floor_eq_iff]
    constructor <;> linarith
  unfold rne
  rw [hf, if_pos (by linarith)]

theorem rne_of_gt_half {t : ℚ} (k : ℤ) (h1 : (k : ℚ) + 1 / 2 < t) (h2 : t < k + 1) :
    rne t = k + 1 := by
  have hf : ⌊t⌋ = k := by
    rw [Int.floor_eq_iff]
    constructor <;> linarith
  unfold rne
  rw [hf, if_neg (by linarith), if_pos (by linarith)]

theorem rne_of_tie_odd {t : ℚ} (k : ℤ) (h1 : t = k + 1 / 2) (hk : k % 2 = 1) :
    rne t = k + 1 := by
  have hf : ⌊t⌋ = k := by
    rw [Int.floor_eq_iff]
    constructor <;> linarith
  unfold rne
  rw [hf, if_neg (by linarith), if_neg (by linarith), if_neg (by omega)]

theorem rne_nonneg {t : ℚ} (h : 0 ≤ t) : 0 ≤ rne t := by
  have := rne_mono h
  rw [show ((0 : ℚ)) = ((0 : ℤ) : ℚ) by norm_num, rne_intCast] at this
  exact this

theorem two_zpow_pos (q : ℤ) : (0 : ℚ) < 2 ^ q := zpow_pos (by norm_num) q

theorem two_zpow_ne_zero (q : ℤ) : (2 : ℚ) ^ q ≠ 0 := ne_of_gt (two_zpow_pos q)

theorem two_zpow_le {a b : ℤ} (h : a ≤ b) : (2 : ℚ) ^ a ≤ 2 ^ b :=
  zpow_le_zpow_right₀ (by norm_num) h

theorem two_zpow_lt {a b : ℤ} (h : a < b) : (2 : ℚ) ^ a < 2 ^ b :=
  zpow_lt_zpow_right₀ (by norm_num) h

theorem two_zpow_split (a q : ℤ) : (2 : ℚ) ^ a = 2 ^ (a - q) * 2 ^ q := by
  rw [← zpow_add₀ (by norm_num : (2 : ℚ) ≠ 0)]
  congr 1
  omega

/-- A power of two with a non-negative exponent is an integer. -/
theorem two_zpow_eq_intCast {n : ℤ} (h : 0 ≤ n) : (2 : ℚ) ^ n = ((2 ^ n.toNat : ℤ) : ℚ) := by
  obtain ⟨k, rfl⟩ := Int.eq_ofNat_of_zero_le h
  simp

theorem zpow_log_le {x : ℚ} (hx : 0 < x) : (2 : ℚ) ^ Int.log 2 x ≤ x := by
  have := Int.zpow_log_le_self (b := 2) (r := x) (by norm_num) hx
  simpa using this

theorem lt_zpow_log_succ (x : ℚ) : x < (2 : ℚ) ^ (Int.log 2 x + 1) := by
  have := Int.lt_zpow_succ_log_self (b := 2) (by norm_num) x
  simpa using this

theorem log_eq_of_bounds {x : ℚ} (e : ℤ) (h1 : (2 : ℚ) ^ e ≤ x) (h2 : x < 2 ^ (e + 1)) :
    Int.log 2 x = e := by
  have hx : 0 < x := lt_of_lt_of_le (two_zpow_pos e) h1
  have a1 : e ≤ Int.log 2 x := by
    rw [← Int.zpow_le_iff_le_log (b := 2) (by norm_num) hx]
    simpa using h1
  have a2 : Int.log 2 x < e + 1 := by
    rw [← Int.lt_zpow_iff_log_lt (b := 2) (by norm_num) hx]
    simpa using h2
  omega

theorem quantum_ge (x : ℚ) : -149 ≤ quantum x := le_max_right _ _

theorem log_sub_le_quantum (x : ℚ) : Int.log 2 x - 23 ≤ quantum x := le_max_left _ _

theorem quantum_mono {x y : ℚ} (hx : 0 < x) (h : x ≤ y) : quantum x ≤ quantum y := by
  have := Int.log_mono_right (b := 2) hx h
  unfold quantum
  exact max_le_max (by omega) le_rfl

theorem div_quantum_lt (x : ℚ) : x / 2 ^ quantum x < 2 ^ (24 : ℤ) := by
  rw [div_lt_iff₀ (two_zpow_pos _)]
  calc x < 2 ^ (Int.log 2 x + 1) := lt_zpow_log_succ x
    _ = 2 ^ (Int.log 2 x + 1 - quantum x) * 2 ^ quantum x := two_zpow_split _ _
    _ ≤ 2 ^ (24 : ℤ) * 2 ^ quantum x := by
      apply mul_le_mul_of_nonneg_right _ (two_zpow_pos _).le
      apply two_zpow_le
      have := log_sub_le_quantum x
      omega

theorem rne_div_quantum_le (x : ℚ) : rne (x / 2 ^ quantum x) ≤ 2 ^ 24 := by
  have h := rne_mono (div_quantum_lt x).le
  have e : (2 : ℚ) ^ (24 : ℤ) = ((2 ^ 24 : ℤ) : ℚ) := by norm_num
  rw [e, rne_intCast] at h
  exact h

theorem roundPos_nonneg {x : ℚ} (hx : 0 ≤ x) : 0 ≤ roundPos x := by
  unfold roundPos
  apply mul_nonneg _ (two_zpow_pos _).le
  exact_mod_cast rne_nonneg (div_nonneg hx (two_zpow_pos _).le)

theorem roundPos_isRep {x : ℚ} (hx : 0 ≤ x) : isRep (roundPos x) :=
  ⟨rne (x / 2 ^ quantum x), quantum x, rne_nonneg (div_nonneg hx (two_zpow_pos _).le),
    rne_div_quantum_le x, quantum_ge x, rfl⟩

theorem roundPos_zero : roundPos 0 = 0 := by
  simp [roundPos, rne]

/-- A value that is an integer number of its own quanta rounds to itself. -/
theorem roundPos_of_multiple {r : ℚ} (N : ℤ) (h : r = N * 2 ^ quantum r) : roundPos r = r := by
  unfold roundPos
  have : r / 2 ^ quantum r = (N : ℚ) := by
    rw [div_eq_iff (two_zpow_ne_zero _)]
    exact h
  rw [this, rne_intCast]
  exact h.symm

theorem roundPos_of_rep (r : ℚ) (M q : ℤ) (hM0 : 0 ≤ M) (hM : M ≤ 2 ^ 24) (hq : -149 ≤ q)
    (hr : r = M * 2 ^ q) : roundPos r = r := by
  rcases eq_or_lt_of_le hM0 with h0 | hpos
  · rw [hr, ← h0]
    simp [roundPos_zero]
  · have hrpos : 0 < r := by
      rw [hr]
      exact mul_pos (by exact_mod_cast hpos) (two_zpow_pos q)
    have hle : r ≤ 2 ^ (24 + q) := by
      rw [hr, zpow_add₀ (by norm_num : (2 : ℚ) ≠ 0)]
      apply mul_le_mul_of_nonneg_right _ (two_zpow_pos q).le
      have : (M : ℚ) ≤ ((2 ^ 24 : ℤ) : ℚ) := by exact_mod_cast hM
      norm_num at this ⊢
      exact this
    have hlog : Int.log 2 r ≤ 24 + q := by
      have h1 := zpow_log_le hrpos
      have h2 : (2 : ℚ) ^ Int.log 2 r ≤ 2 ^ (24 + q) := le_trans h1 hle
      exact (zpow_le_zpow_iff_right₀ (by norm_num : (1 : ℚ) < 2)).mp h2
    by_cases hq' : quantum r ≤ q
    · apply roundPos_of_multiple (M * 2 ^ (q - quantum r).toNat)
      have key : (M : ℚ) * 2 ^ q
          = ((M * 2 ^ (q - quantum r).toNat : ℤ) : ℚ) * 2 ^ quantum r := by
        rw [two_zpow_split q (quantum r), two_zpow_eq_intCast (by omega : 0 ≤ q - quantum r)]
        push_cast
        ring
      exact hr.trans key
    · have hq'' : q < quantum r := not_le.mp hq'
      have hqe : quantum r = Int.log 2 r - 23 := by
        unfold quantum at hq'' ⊢
        rcases max_cases (Int.log 2 r - 23) (-149) with ⟨h1, _⟩ | ⟨h1, _⟩
        · exact h1
        · rw [h1] at hq''
          omega
      have hlog' : Int.log 2 r = 24 + q := by omega
      have hge : (2 : ℚ) ^ (24 + q) ≤ r := by
        rw [← hlog']
        exact zpow_log_le hrpos
      have hreq : r = 2 ^ (24 + q) := le_antisymm hle hge
      apply roundPos_of_multiple (2 ^ 23)
      have hqr : quantum r = q + 1 := by omega
      have key : (2 : ℚ) ^ (24 + q) = ((2 ^ 23 : ℤ) : ℚ) * 2 ^ quantum r := by
        rw [hqr]
        have : (24 + q : ℤ) = 23 + (q + 1) := by ring
        rw [this, zpow_add₀ (by norm_num : (2 : ℚ) ≠ 0)]
        norm_num
      exact hreq.trans key

theorem roundPos_of_isRep {r : ℚ} (h : isRep r) : roundPos r = r := by
  obtain ⟨M, q, hM0, hM, hq, hr⟩ := h
  exact roundPos_of_rep r M q hM0 hM hq hr

theorem roundPos_idem {x : ℚ} (hx : 0 ≤ x) : roundPos (roundPos x) = roundPos x :=
  roundPos_of_isRep (roundPos_isRep hx)

theorem quantum_eq_of_gt {x : ℚ} {q : ℤ} (hq : -149 ≤ q) (h : q < quantum x) :
    quantum x = Int.log 2 x - 23 := by
  unfold quantum at h ⊢
  rcases max_cases (Int.log 2 x - 23) (-149) with ⟨h1, _⟩ | ⟨h1, _⟩
  · exact h1
  · rw [h1] at h
    omega

theorem roundPos_mono {x y : ℚ} (hx : 0 ≤ x) (h : x ≤ y) : roundPos x ≤ roundPos y := by
  rcases eq_or_lt_of_le hx with h0 | hpos
  · rw [← h0, roundPos_zero]
    exact roundPos_nonneg (le_trans hx h)
  · have hypos : 0 < y := lt_of_lt_of_le hpos h
    have hq := quantum_mono hpos h
    rcases eq_or_lt_of_le hq with heq | hlt
    · unfold roundPos
      rw [heq]
      apply mul_le_mul_of_nonneg_right _ (two_zpow_pos _).le
      have : x / 2 ^ quantum y ≤ y / 2 ^ quantum y :=
        div_le_div_of_nonneg_right h (two_zpow_pos _).le
      exact_mod_cast rne_mono this
    · have hqy := quantum_eq_of_gt (quantum_ge x) hlt
      have hlx := log_sub_le_quantum x
      -- the boundary between the two binades
      have hB1 : x < 2 ^ Int.log 2 y :=
        lt_of_lt_of_le (lt_zpow_log_succ x) (two_zpow_le (by omega))
      have hB2 : (2 : ℚ) ^ Int.log 2 y ≤ y := zpow_log_le hypos
      -- the larger value rounds to at least the boundary
      have hy : (2 : ℚ) ^ Int.log 2 y ≤ roundPos y := by
        unfold roundPos
        have e1 : (2 : ℚ) ^ Int.log 2 y = ((2 ^ 23 : ℤ) : ℚ) * 2 ^ quantum y := by
          rw [two_zpow_split (Int.log 2 y) (quantum y), hqy]
          have : Int.log 2 y - (Int.log 2 y - 23) = 23 := by ring
          rw [this]
          norm_num
        rw [e1]
        apply mul_le_mul_of_nonneg_right _ (two_zpow_pos _).le
        have : ((2 ^ 23 : ℤ) : ℚ) ≤ y / 2 ^ quantum y := by
          rw [le_div_iff₀ (two_zpow_pos _), ← e1]
          exact hB2
        have := rne_mono this
        rw [rne_intCast] at this
        exact_mod_cast this
      -- the smaller value rounds to at most the boundary
      have hxr : roundPos x ≤ 2 ^ Int.log 2 y := by
        unfold roundPos
        have hn : 0 ≤ Int.log 2 y - quantum x := by omega
        have e1 : (2 : ℚ) ^ Int.log 2 y
            = ((2 ^ (Int.log 2 y - quantum x).toNat : ℤ) : ℚ) * 2 ^ quantum x := by
          rw [two_zpow_split (Int.log 2 y) (quantum x), two_zpow_eq_intCast hn]
        rw [e1]
        apply mul_le_mul_of_nonneg_right _ (two_zpow_pos _).le
        have : x / 2 ^ quantum x ≤ ((2 ^ (Int.log 2 y - quantum x).toNat : ℤ) : ℚ) := by
          rw [div_le_iff₀ (two_zpow_pos _), ← e1]
          exact hB1.le
        have := rne_mono this
        rw [rne_intCast] at this
        exact_mod_cast this
      exact le_trans hxr hy

theorem round32_of_nonneg {x : ℚ} (h : 0 ≤ x) : round32 x = roundPos x := by
  simp [round32, h]

theorem round32_of_neg {x : ℚ} (h : x < 0) : round32 x = -roundPos (-x) := by
  simp [round32, not_le.mpr h]

theorem round32_zero : round32 0 = 0 := by
  rw [round32_of_nonneg le_rfl, roundPos_zero]

/-- Rounding is monotone. -/
theorem round32_mono {x y : ℚ} (h : x ≤ y) : round32 x ≤ round32 y := by
  rcases le_or_lt 0 x with hx | hx
  · rw [round32_of_nonneg hx, round32_of_nonneg (le_trans hx h)]
    exact roundPos_mono hx h
  · rcases le_or_lt 0 y with hy | hy
    · rw [round32_of_neg hx, round32_of_nonneg hy]
      have h1 := roundPos_nonneg (x := -x) (by linarith)
      have h2 := roundPos_nonneg hy
      linarith
    · rw [round32_of_neg hx, round32_of_neg hy]
      have := roundPos_mono (x := -y) (y := -x) (by linarith) (by linarith)
      linarith

/-- Rounding a rounded value changes nothing. -/
theorem round32_idem (x : ℚ) : round32 (round32 x) = round32 x := by
  rcases le_or_lt 0 x with hx | hx
  · rw [round32_of_nonneg hx, round32_of_nonneg (roundPos_nonneg hx), roundPos_idem hx]
  · have hx' : 0 ≤ -x := by linarith
    rw [round32_of_neg hx]
    rcases eq_or_lt_of_le (roundPos_nonneg hx') with h0 | hpos
    · rw [← h0]
      simp [round32_zero]
    · rw [round32_of_neg (by linarith), neg_neg, roundPos_idem hx']

theorem round32_nonneg {x : ℚ} (h : 0 ≤ x) : 0 ≤ round32 x := by
  rw [round32_of_nonneg h]
  exact roundPos_nonneg h

theorem round32_neg (x : ℚ) : round32 (-x) = -round32 x := by
  rcases lt_trichotomy x 0 with h | h | h
  · rw [round32_of_neg h, round32_of_nonneg (by linarith), neg_neg]
  · rw [h]
    simp [round32_zero]
  · rw [round32_of_neg (by linarith : -x < 0), round32_of_nonneg h.le, neg_neg]

/-- A value strictly below the rounding of `y` that is itself a rounded value
is at most `y`. -/
theorem le_of_lt_round32 {p y : ℚ} (hp : round32 p = p) (h : p < round32 y) : p ≤ y := by
  by_contra hcon
  have := round32_mono (not_le.mp hcon).le
  rw [hp] at this
  linarith

theorem isRep_multiple {r : ℚ} (h : isRep r) : ∃ k : ℤ, r = k * 2 ^ (-149 : ℤ) := by
  obtain ⟨M, q, _, _, hq, hr⟩ := h
  refine ⟨M * 2 ^ (q - (-149)).toNat, ?_⟩
  rw [hr, two_zpow_split q (-149), two_zpow_eq_intCast (by omega : 0 ≤ q - (-149))]
  push_cast
  ring

/-- Every rounded value is an integer number of the smallest quantum `2^-149`. -/
theorem round32_multiple {a : ℚ} (ha : round32 a = a) : ∃ k : ℤ, a = k * 2 ^ (-149 : ℤ) := by
  rcases le_or_lt 0 a with h | h
  · rw [round32_of_nonneg h] at ha
    have := roundPos_isRep h
    rw [ha] at this
    exact isRep_multiple this
  · rw [round32_of_neg h] at ha
    have hr := roundPos_isRep (x := -a) (by linarith)
    obtain ⟨k, hk⟩ := isRep_multiple hr
    refine ⟨-k, ?_⟩
    push_cast
    linarith

/-- There is no rounded value strictly between `1 - 2^-24` and 1. -/
theorem le_pred_one {r : ℚ} (hr : round32 r = r) (h0 : 0 ≤ r) (h1 : r < 1) :
    r ≤ 16777215 / 16777216 := by
  rw [round32_of_nonneg h0] at hr
  have hrep := roundPos_isRep h0
  rw [hr] at hrep
  obtain ⟨M, q, hM0, hM, hq, hrq⟩ := hrep
  by_cases hq24 : -24 ≤ q
  · have e : r = ((M * 2 ^ (q - (-24)).toNat : ℤ) : ℚ) * 2 ^ (-24 : ℤ) := by
      rw [hrq, two_zpow_split q (-24), two_zpow_eq_intCast (by omega : 0 ≤ q - (-24))]
      push_cast
      ring
    generalize M * 2 ^ (q - (-24)).toNat = K at e
    have hK : (K : ℚ) < 16777216 := by
      rw [e] at h1
      norm_num at h1
      linarith
    have hK' : K ≤ 16777215 := by
      have : K < 16777216 := by exact_mod_cast hK
      omega
    have hK'' : (K : ℚ) ≤ 16777215 := by exact_mod_cast hK'
    rw [e]
    norm_num
    linarith
  · have hle : (2 : ℚ) ^ q ≤ 2 ^ (-25 : ℤ) := two_zpow_le (by omega)
    have hM' : (M : ℚ) ≤ 16777216 := by exact_mod_cast hM
    have hM0' : (0 : ℚ) ≤ M := by exact_mod_cast hM0
    have : r ≤ 16777216 * 2 ^ (-25 : ℤ) := by
      rw [hrq]
      exact mul_le_mul hM' hle (two_zpow_pos q).le (by norm_num)
    norm_num at this
    linarith

/-- When a difference of two rounded values rounds up, scaling the rounded
difference by a factor of at most `1 - 2^-24` rounds strictly below it. -/
theorem roundPos_mul_lt {y u : ℚ} (k : ℤ) (hy : 0 < y) (hk : y = k * 2 ^ (-149 : ℤ))
    (hup : y < roundPos y) (hu0 : 0 ≤ u) (hu1 : u ≤ 16777215 / 16777216) :
    roundPos (roundPos y * u) < roundPos y := by
  have hd : roundPos y = rne (y / 2 ^ quantum y) * 2 ^ quantum y := rfl
  have hqpos := two_zpow_pos (quantum y)
  -- the scaled value `t` and its rounding `M`
  have hMt : y / 2 ^ quantum y < rne (y / 2 ^ quantum y) := by
    rw [div_lt_iff₀ hqpos, ← hd]
    exact hup
  -- the quantum is not the subnormal one
  have hq149 : -149 < quantum y := by
    rcases eq_or_lt_of_le (quantum_ge y) with h | h
    · exfalso
      have ht : y / 2 ^ quantum y = (k : ℚ) := by
        rw [← h, div_eq_iff (two_zpow_ne_zero _)]
        exact hk
      rw [ht, rne_intCast] at hMt
      exact lt_irrefl _ hMt
    · exact h
  have hqe : quantum y = Int.log 2 y - 23 := quantum_eq_of_gt le_rfl hq149
  have hpow : (2 : ℚ) ^ Int.log 2 y = 8388608 * 2 ^ quantum y := by
    rw [two_zpow_split (Int.log 2 y) (quantum y), hqe]
    have : Int.log 2 y - (Int.log 2 y - 23) = 23 := by ring
    rw [this]
    norm_num
  have hpow1 : (2 : ℚ) ^ (Int.log 2 y + 1) = 16777216 * 2 ^ quantum y := by
    rw [two_zpow_split (Int.log 2 y + 1) (quantum y), hqe]
    have : Int.log 2 y + 1 - (Int.log 2 y - 23) = 24 := by ring
    rw [this]
    norm_num
  have ht23 : (8388608 : ℚ) ≤ y / 2 ^ quantum y := by
    rw [le_div_iff₀ hqpos, ← hpow]
    exact zpow_log_le hy
  generalize hM : rne (y / 2 ^ quantum y) = M at hd hMt
  have hMle : M ≤ 2 ^ 24 := by
    rw [← hM]
    exact rne_div_quantum_le y
  have hfl1 : M ≤ ⌊y / 2 ^ quantum y⌋ + 1 := by
    rw [← hM]
    exact rne_le_floor_add_one _
  have hfl2 : (8388608 : ℤ) ≤ ⌊y / 2 ^ quantum y⌋ := by
    rw [Int.le_floor]
    exact_mod_cast ht23
  have hfl3 : ⌊y / 2 ^ quantum y⌋ < M := by
    rw [Int.floor_lt]
    exact hMt
  have hM23 : (8388609 : ℤ) ≤ M := by omega
  have hM23' : (8388609 : ℚ) ≤ M := by exact_mod_cast hM23
  have hM24' : (M : ℚ) ≤ 16777216 := by exact_mod_cast hMle
  -- the rounded value just below
  have hg : roundPos (((M - 1 : ℤ) : ℚ) * 2 ^ quantum y) = ((M - 1 : ℤ) : ℚ) * 2 ^ quantum y :=
    roundPos_of_rep _ (M - 1) (quantum y) (by omega) (by omega) (quantum_ge y) rfl
  have hdpos : 0 ≤ roundPos y := roundPos_nonneg hy.le
  have hx0 : 0 ≤ roundPos y * u := mul_nonneg hdpos hu0
  have hxlt : roundPos y * u < ((M : ℚ) - 1 / 2) * 2 ^ quantum y := by
    have h1 : roundPos y * u ≤ roundPos y * (16777215 / 16777216) :=
      mul_le_mul_of_nonneg_left hu1 hdpos
    have h2 : roundPos y * (16777215 / 16777216)
        = ((M : ℚ) * (16777215 / 16777216)) * 2 ^ quantum y := by
      rw [hd]
      ring
    have h3 : (M : ℚ) * (16777215 / 16777216) < (M : ℚ) - 1 / 2 := by linarith
    have h4 := mul_lt_mul_of_pos_right h3 hqpos
    linarith
  have hgd : ((M - 1 : ℤ) : ℚ) * 2 ^ quantum y < roundPos y := by
    rw [hd]
    apply mul_lt_mul_of_pos_right _ hqpos
    push_cast
    linarith
  rcases le_or_lt (roundPos y * u) (((M - 1 : ℤ) : ℚ) * 2 ^ quantum y) with hle | hgt
  · have := roundPos_mono hx0 hle
    rw [hg] at this
    exact lt_of_le_of_lt this hgd
  · have hlog : Int.log 2 (roundPos y * u) = Int.log 2 y := by
      apply log_eq_of_bounds
      · rw [hpow]
        have : (8388608 : ℚ) * 2 ^ quantum y ≤ ((M - 1 : ℤ) : ℚ) * 2 ^ quantum y := by
          apply mul_le_mul_of_nonneg_right _ hqpos.le
          push_cast
          linarith
        linarith
      · rw [hpow1]
        have : ((M : ℚ) - 1 / 2) * 2 ^ quantum y ≤ 16777216 * 2 ^ quantum y := by
          apply mul_le_mul_of_nonneg_right _ hqpos.le
          linarith
        linarith
    have hqx : quantum (roundPos y * u) = quantum y := by
      unfold quantum
      rw [hlog]
    have hr : rne (roundPos y * u / 2 ^ quantum y) = M - 1 := by
      apply rne_of_lt_half
      · rw [le_div_iff₀ hqpos]
        exact hgt.le
      · rw [div_lt_iff₀ hqpos]
        push_cast
        linarith
    have : roundPos (roundPos y * u) = ((M - 1 : ℤ) : ℚ) * 2 ^ quantum y := by
      rw [roundPos_def (roundPos y * u), hqx, hr]
    rw [this]
    exact hgd


/-! ## The binary32 kernel -/

/-- Evaluation of the rounding of a value whose binade is known. -/
theorem roundPos_eval {x : ℚ} (e M : ℤ) (h1 : (2 : ℚ) ^ e ≤ x) (h2 : x < 2 ^ (e + 1))
    (hM : rne (x / 2 ^ max (e - 23) (-149)) = M) :
    roundPos x = M * 2 ^ max (e - 23) (-149) := by
  have hl := log_eq_of_bounds e h1 h2
  rw [roundPos_def]
  unfold quantum
  rw [hl, hM]

theorem round32_of_rep (r : ℚ) (M q : ℤ) (hM0 : 0 ≤ M) (hM : M ≤ 2 ^ 24) (hq : -149 ≤ q)
    (hr : r = M * 2 ^ q) : round32 r = r := by
  have h0 : 0 ≤ r := by
    rw [hr]
    exact mul_nonneg (by exact_mod_cast hM0) (two_zpow_pos q).le
  rw [round32_of_nonneg h0]
  exact roundPos_of_rep r M q hM0 hM hq hr

theorem round32_FLT_MAX : round32 FLT_MAX = FLT_MAX :=
  round32_of_rep FLT_MAX 16777215 104 (by norm_num) (by norm_num) (by norm_num)
    (by norm_num [FLT_MAX])

theorem FLT_MAX_pos : 0 < FLT_MAX := by norm_num [FLT_MAX]

theorem fl_eq_some {x : ℚ} (h : |round32 x| ≤ FLT_MAX) : fl x = some (round32 x) := by
  simp [fl, h]

theorem fl_of_isFloat {x : ℚ} (h : isFloat x) : fl x = some x := by
  obtain ⟨h1, h2⟩ := h
  rw [fl_eq_some (by rw [h1]; exact h2), h1]

/-- An operation whose exact result lies between two finite floats yields a
finite float between them. -/
theorem fl_between {a b x : ℚ} (ha : isFloat a) (hb : isFloat b) (h1 : a ≤ x) (h2 : x ≤ b) :
    fl x = some (round32 x) ∧ a ≤ round32 x ∧ round32 x ≤ b := by
  have l1 : a ≤ round32 x := by
    have := round32_mono h1
    rw [ha.1] at this
    exact this
  have l2 : round32 x ≤ b := by
    have := round32_mono h2
    rw [hb.1] at this
    exact this
  refine ⟨fl_eq_some ?_, l1, l2⟩
  have ha2 := abs_le.mp ha.2
  have hb2 := abs_le.mp hb.2
  exact abs_le.mpr ⟨by linarith, by linarith⟩

theorem isFloat_zero : isFloat 0 := ⟨round32_zero, by norm_num [FLT_MAX]⟩

theorem isFloat_FLT_MAX : isFloat FLT_MAX :=
  ⟨round32_FLT_MAX, by rw [abs_of_pos FLT_MAX_pos]⟩

theorem isFloat_round32 {x : ℚ} (h : |round32 x| ≤ FLT_MAX) : isFloat (round32 x) :=
  ⟨round32_idem x, h⟩

/-- The scaled draw in rational terms: for floats `a < b` and a factor `u` in
`[0, 1 - 2^-24]`, the rounded product `fl (fl (b - a) * u)` lies between 0 and
`b - a`, and adding `a` and rounding gives a value in `[a, b]`. -/
theorem scale_bounds {a b u : ℚ} (ha : round32 a = a) (hb : round32 b = b) (hab : a < b)
    (hu0 : 0 ≤ u) (hu1 : u ≤ 16777215 / 16777216) :
    0 ≤ round32 (b - a)
      ∧ 0 ≤ round32 (round32 (b - a) * u)
      ∧ round32 (round32 (b - a) * u) ≤ round32 (b - a)
      ∧ round32 (round32 (b - a) * u) ≤ b - a
      ∧ a ≤ round32 (round32 (round32 (b - a) * u) + a)
      ∧ round32 (round32 (round32 (b - a) * u) + a) ≤ b := by
  have hy : 0 < b - a := by linarith
  have hd0 : 0 ≤ round32 (b - a) := round32_nonneg hy.le
  have hx0 : 0 ≤ round32 (b - a) * u := mul_nonneg hd0 hu0
  have hxd : round32 (b - a) * u ≤ round32 (b - a) := by
    have : u ≤ 1 := by linarith
    calc round32 (b - a) * u ≤ round32 (b - a) * 1 := mul_le_mul_of_nonneg_left this hd0
      _ = round32 (b - a) := mul_one _
  have hp0 : 0 ≤ round32 (round32 (b - a) * u) := round32_nonneg hx0
  have hpd : round32 (round32 (b - a) * u) ≤ round32 (b - a) := by
    have := round32_mono hxd
    rw [round32_idem] at this
    exact this
  have hpy : round32 (round32 (b - a) * u) ≤ b - a := by
    rcases le_or_lt (round32 (b - a)) (b - a) with hle | hgt
    · exact le_trans hpd hle
    · obtain ⟨ka, hka⟩ := round32_multiple ha
      obtain ⟨kb, hkb⟩ := round32_multiple hb
      have hk : b - a = ((kb - ka : ℤ) : ℚ) * 2 ^ (-149 : ℤ) := by
        push_cast
        rw [sub_mul, ← hka, ← hkb]
      rw [round32_of_nonneg hy.le] at hgt
      have hlt := roundPos_mul_lt (kb - ka) hy hk hgt hu0 hu1
      apply le_of_lt_round32 (round32_idem _)
      rw [round32_of_nonneg hx0, round32_of_nonneg hy.le]
      exact hlt
  refine ⟨hd0, hp0, hpd, hpy, ?_, ?_⟩
  · have := round32_mono (show a ≤ round32 (round32 (b - a) * u) + a by linarith)
    rw [ha] at this
    exact this
  · have := round32_mono (show round32 (round32 (b - a) * u) + a ≤ b by linarith)
    rw [hb] at this
    exact this

theorem round32_range : round32 2147483646 = 2147483648 := by
  rw [round32_of_nonneg (by norm_num),
    roundPos_eval 30 16777216 (by norm_num) (by norm_num)
      (rne_of_gt_half 16777215 (by norm_num) (by norm_num))]
  norm_num

/-- The value `generate_canonical` makes of a raw draw is a finite float in
`[0, 1 - 2^-24]`. -/
theorem canonical_binary32 (x : ℕ) (h1 : 0 < x) (h2 : x < 2147483647) :
    ∃ u, RealArith.binary32.canonical x = some u ∧ round32 u = u ∧ 0 ≤ u
      ∧ u ≤ 16777215 / 16777216 := by
  have hmin : minstd_rand.min = 1 := rfl
  have hmax : (minstd_rand.max : ℚ) - (minstd_rand.min : ℚ) + 1 = 2147483646 := by
    norm_num [minstd_rand.max, minstd_rand.min, minstd_rand.modulus, minstd_rand.increment]
  have hx0 : (0 : ℚ) ≤ ((x - 1 : ℕ) : ℚ) := Nat.cast_nonneg _
  have hx1 : ((x - 1 : ℕ) : ℚ) ≤ 2147483648 := by
    have : x - 1 ≤ 2147483648 := by omega
    exact_mod_cast this
  have h31 : round32 2147483648 = 2147483648 :=
    round32_of_rep 2147483648 1 31 (by norm_num) (by norm_num) (by norm_num) (by norm_num)
  have hs0 : 0 ≤ round32 ((x - 1 : ℕ) : ℚ) := round32_nonneg hx0
  have hs1 : round32 ((x - 1 : ℕ) : ℚ) ≤ 2147483648 := by
    have := round32_mono hx1
    rw [h31] at this
    exact this
  have hfs : fl ((x - 1 : ℕ) : ℚ) = some (round32 ((x - 1 : ℕ) : ℚ)) := by
    apply fl_eq_some
    rw [abs_of_nonneg hs0]
    exact le_trans hs1 (by norm_num [FLT_MAX])
  have hfr : fl 2147483646 = some 2147483648 := by
    rw [fl_eq_some (by rw [round32_range]; norm_num [FLT_MAX]), round32_range]
  have hq0 : 0 ≤ round32 ((x - 1 : ℕ) : ℚ) / 2147483648 := div_nonneg hs0 (by norm_num)
  have hq1 : round32 ((x - 1 : ℕ) : ℚ) / 2147483648 ≤ 1 := by
    rw [div_le_one (by norm_num)]
    exact hs1
  have hone : round32 1 = 1 :=
    round32_of_rep 1 1 0 (by norm_num) (by norm_num) (by norm_num) (by norm_num)
  have hr0 : 0 ≤ round32 (round32 ((x - 1 : ℕ) : ℚ) / 2147483648) := round32_nonneg hq0
  have hr1 : round32 (round32 ((x - 1 : ℕ) : ℚ) / 2147483648) ≤ 1 := by
    have := round32_mono hq1
    rw [hone] at this
    exact this
  have hfq : fl (round32 ((x - 1 : ℕ) : ℚ) / 2147483648)
      = some (round32 (round32 ((x - 1 : ℕ) : ℚ) / 2147483648)) := by
    apply fl_eq_some
    rw [abs_of_nonneg hr0]
    exact le_trans hr1 (by norm_num [FLT_MAX])
  refine ⟨if 1 ≤ round32 (round32 ((x - 1 : ℕ) : ℚ) / 2147483648) then 16777215 / 16777216
      else round32 (round32 ((x - 1 : ℕ) : ℚ) / 2147483648), ?_, ?_, ?_, ?_⟩
  · simp only [RealArith.binary32]
    rw [hmax, hmin, hfs, hfr]
    simp only [Option.some_bind]
    rw [hfq]
    rfl
  · split_ifs
    · exact round32_of_rep _ 16777215 (-24) (by norm_num) (by norm_num) (by norm_num)
        (by norm_num)
    · exact round32_idem _
  · split_ifs
    · norm_num
    · exact hr0
  · split_ifs with h
    · exact le_rfl
    · exact le_pred_one (round32_idem _) hr0 (not_le.mp h)


theorem binary32_add (p q : ℚ) : RealArith.binary32.add (some p) (some q) = fl (p + q) := rfl

theorem binary32_sub (p q : ℚ) : RealArith.binary32.sub (some p) (some q) = fl (p - q) := rfl

theorem binary32_mul (p q : ℚ) : RealArith.binary32.mul (some p) (some q) = fl (p * q) := rfl

theorem binary32_ofFloat (v : ℚ) : RealArith.binary32.ofFloat v = fl v := rfl

/-- Every value the float distribution makes of a raw draw is a finite float in
the closed range `[a, b]`, for finite floats `a < b` whose float difference is
finite. -/
theorem drawValue_binary32_bounds (a b : ℚ) (ha : isFloat a) (hb : isFloat b) (hab : a < b)
    (hfin : fl (b - a) ≠ none) (seed k : ℕ) :
    ∃ v, drawValue RealArith.binary32 (RealArith.binary32.ofFloat a)
        (RealArith.binary32.ofFloat b) seed k = some v ∧ a ≤ v ∧ v ≤ b := by
  obtain ⟨u, hu, _, hu0, hu1⟩ := canonical_binary32 (rawDraw seed k) (rawDraw_pos seed k)
    (rawDraw_lt seed k)
  obtain ⟨hd0, hp0, hpd, hpy, _, _⟩ := scale_bounds ha.1 hb.1 hab hu0 hu1
  have hdmax : round32 (b - a) ≤ FLT_MAX := by
    have : |round32 (b - a)| ≤ FLT_MAX := by
      by_contra h
      exact hfin (by simp [fl, h])
    exact le_trans (le_abs_self _) this
  have hfd : fl (b - a) = some (round32 (b - a)) :=
    fl_eq_some (by rw [abs_of_nonneg hd0]; exact hdmax)
  have hfp : fl (round32 (b - a) * u) = some (round32 (round32 (b - a) * u)) :=
    fl_eq_some (by rw [abs_of_nonneg hp0]; exact le_trans hpd hdmax)
  obtain ⟨hfv, hv0, hv1⟩ := fl_between (x := round32 (round32 (b - a) * u) + a) ha hb
    (by linarith) (by linarith)
  refine ⟨round32 (round32 (round32 (b - a) * u) + a), ?_, hv0, hv1⟩
  simp only [drawValue, binary32_ofFloat]
  rw [hu, fl_of_isFloat ha, fl_of_isFloat hb, binary32_sub, hfd, binary32_mul, hfp,
    binary32_add, hfv]

/-- C5 (amended): for the `float` kernel, finite `float` attributes `min < max`
whose float difference `max - min` is finite (it does not overflow), every
seed, entropy value and element count, each element the kernel writes is the
draw `(max - min) * u + min`, computed in binary32 from one step of the engine,
and is a finite value `v` with `min ≤ v ≤ max`. -/
theorem C5_binary32_elements_in_closed_range (e : ℕ) (ctx : ExecutionContext (Option ℚ))
    (s : Int) (min max : ℚ)
    (hseed : ctx.attrs.GetInt "seed" = .ok s)
    (hmin : ctx.attrs.GetFloat "min" = .ok min)
    (hmax : ctx.attrs.GetFloat "max" = .ok max)
    (halloc : ctx.Out.allocated)
    (hfmin : isFloat min) (hfmax : isFloat max) (hlt : min < max)
    (hfin : fl (max - min) ≠ none) :
    ∃ t, Compute RealArith.binary32 e ctx = .ok t
      ∧ ∀ i, i < ctx.Out.numel.toNat →
          ∃ v, t.data[i]? = some (some v) ∧ min ≤ v ∧ v ≤ max
            ∧ (uniform_real_distribution.draw RealArith.binary32
                ⟨RealArith.binary32.ofFloat min, RealArith.binary32.ofFloat max⟩
                ((minstd_rand.init.seed (effectiveSeed s e)).discard i)).1 = some v := by
  refine ⟨_, Compute_eq RealArith.binary32 e ctx s min max hseed hmin hmax halloc, ?_⟩
  intro i hi
  obtain ⟨v, hv, hv0, hv1⟩ := drawValue_binary32_bounds min max hfmin hfmax hlt hfin
    (effectiveSeed s e) (i + 1)
  refine ⟨v, ?_, hv0, hv1, ?_⟩
  · simp only
    rw [List.getElem?_append_left (by rw [drawSequence_length]; exact hi),
      drawSequence_getElem? _ _ _ _ _ _ hi, hv]
  · rw [draw_discard]
    exact hv

theorem canonical_unfold (x : ℕ) :
    RealArith.binary32.canonical x
      = (fl ((x - 1 : ℕ) : ℚ)).bind fun s =>
          (fl (s / 2147483648)).map fun u => if 1 ≤ u then 16777215 / 16777216 else u := by
  have hmin : minstd_rand.min = 1 := rfl
  have hmax : (minstd_rand.max : ℚ) - (minstd_rand.min : ℚ) + 1 = 2147483646 := by
    norm_num [minstd_rand.max, minstd_rand.min, minstd_rand.modulus, minstd_rand.increment]
  have hfr : fl 2147483646 = some 2147483648 := by
    rw [fl_eq_some (by rw [round32_range]; norm_num [FLT_MAX]), round32_range]
  simp only [RealArith.binary32]
  rw [hmax, hmin, hfr]
  rfl

theorem isFloat_of_rep (r : ℚ) (M q : ℤ) (hM0 : 0 ≤ M) (hM : M ≤ 2 ^ 24) (hq : -149 ≤ q)
    (hr : r = M * 2 ^ q) (hmax : r ≤ FLT_MAX) : isFloat r := by
  refine ⟨round32_of_rep r M q hM0 hM hq hr, ?_⟩
  have h0 : 0 ≤ r := by
    rw [hr]
    exact mul_nonneg (by exact_mod_cast hM0) (two_zpow_pos q).le
  rw [abs_of_nonneg h0]
  exact hmax

theorem isFloat_one : isFloat 1 :=
  isFloat_of_rep 1 1 0 (by norm_num) (by norm_num) (by norm_num) (by norm_num)
    (by norm_num [FLT_MAX])

theorem isFloat_two : isFloat 2 :=
  isFloat_of_rep 2 1 1 (by norm_num) (by norm_num) (by norm_num) (by norm_num)
    (by norm_num [FLT_MAX])

theorem isFloat_half : isFloat (1 / 2) :=
  isFloat_of_rep (1 / 2) 1 (-1) (by norm_num) (by norm_num) (by norm_num) (by norm_num)
    (by norm_num [FLT_MAX])

theorem isFloat_pred_one : isFloat (16777215 / 16777216) :=
  isFloat_of_rep (16777215 / 16777216) 16777215 (-24) (by norm_num) (by norm_num) (by norm_num)
    (by norm_num) (by norm_num [FLT_MAX])

theorem isFloat_two_pow_30 : isFloat 1073741824 :=
  isFloat_of_rep 1073741824 1 30 (by norm_num) (by norm_num) (by norm_num) (by norm_num)
    (by norm_num [FLT_MAX])

theorem isFloat_two_pow_31 : isFloat 2147483648 :=
  isFloat_of_rep 2147483648 1 31 (by norm_num) (by norm_num) (by norm_num) (by norm_num)
    (by norm_num [FLT_MAX])

/-- The integer `2^31 - 3` rounds up to `2^31`. -/
theorem fl_2147483645 : fl 2147483645 = some 2147483648 := by
  have h : round32 2147483645 = 2147483648 := by
    rw [round32_of_nonneg (by norm_num),
      roundPos_eval 30 16777216 (by norm_num) (by norm_num)
        (rne_of_gt_half 16777215 (by norm_num) (by norm_num))]
    norm_num
  rw [fl_eq_some (by rw [h]; norm_num [FLT_MAX]), h]

/-- The integer `2^30 + 1` rounds down to `2^30`. -/
theorem fl_1073741825 : fl 1073741825 = some 1073741824 := by
  have h : round32 1073741825 = 1073741824 := by
    rw [round32_of_nonneg (by norm_num),
      roundPos_eval 30 8388608 (by norm_num) (by norm_num)
        (rne_of_lt_half 8388608 (by norm_num) (by norm_num))]
    norm_num
  rw [fl_eq_some (by rw [h]; norm_num [FLT_MAX]), h]

/-- The sum `1 + (1 - 2^-24)` lies halfway between two floats and rounds to the
even one, 2. -/
theorem fl_one_add_pred_one : fl (33554431 / 16777216) = some 2 := by
  have h : round32 (33554431 / 16777216) = 2 := by
    rw [round32_of_nonneg (by norm_num),
      roundPos_eval 0 16777216 (by norm_num) (by norm_num)
        (rne_of_tie_odd 16777215 (by norm_num) (by norm_num))]
    norm_num
  rw [fl_eq_some (by rw [h]; norm_num [FLT_MAX]), h]

/-- The largest raw draw, `2^31 - 2`, is scaled to the largest float below 1. -/
theorem canonical_2147483646 :
    RealArith.binary32.canonical 2147483646 = some (16777215 / 16777216) := by
  rw [canonical_unfold]
  norm_num [fl_2147483645, fl_of_isFloat isFloat_one]

theorem canonical_1073741825 : RealArith.binary32.canonical 1073741825 = some (1 / 2) := by
  rw [canonical_unfold]
  norm_num [fl_of_isFloat isFloat_two_pow_30, fl_of_isFloat isFloat_half]

theorem canonical_1073741826 : RealArith.binary32.canonical 1073741826 = some (1 / 2) := by
  rw [canonical_unfold]
  norm_num [fl_1073741825, fl_of_isFloat isFloat_half]

theorem drawSequence_one {T : Type} (A : RealArith T) (a b : T) (seed : ℕ) :
    drawSequence A a b seed 1 = [drawValue A a b seed 1] := rfl


/-! ## The float kernel: range of the values and collisions of seeds -/

theorem isFloat_neg {x : ℚ} (h : isFloat x) : isFloat (-x) :=
  ⟨by rw [round32_neg, h.1], by rw [abs_neg]; exact h.2⟩

/-- When `max - min` overflows, the draw is not a finite number. -/
theorem drawValue_binary32_overflow (seed k : ℕ) :
    drawValue RealArith.binary32 (RealArith.binary32.ofFloat (-FLT_MAX))
      (RealArith.binary32.ofFloat FLT_MAX) seed k = none := by
  have h2 : round32 (FLT_MAX - -FLT_MAX) = FLT_MAX - -FLT_MAX :=
    round32_of_rep _ 16777215 105 (by norm_num) (by norm_num) (by norm_num)
      (by norm_num [FLT_MAX])
  have hfl : fl (FLT_MAX - -FLT_MAX) = none := by
    unfold fl
    rw [h2, if_neg]
    norm_num [FLT_MAX]
  simp only [drawValue, binary32_ofFloat]
  rw [fl_of_isFloat isFloat_FLT_MAX, fl_of_isFloat (isFloat_neg isFloat_FLT_MAX), binary32_sub,
    hfl]
  rfl

/-- C5 (as stated) fails. For the `float` kernel with seed 247665088 and the
range `min = 1 < max = 2`, the first raw draw is `2^31 - 2`, it is scaled to
`1 - 2^-24`, and `1 + (1 - 2^-24)` rounds to 2: the element written equals
`max`. With the range `min = -FLT_MAX < max = FLT_MAX`, `max - min` overflows
and the element written is not a finite number. -/
theorem C5_float_draw_reaches_max :
    isFloat 1 ∧ isFloat 2 ∧ (1 : ℚ) < 2 ∧ isInt 247665088
      ∧ (InferShape ⟨["Out"], (floatContext 247665088 1 2 [1] [some 0]).attrs, []⟩).1 = .ok ()
      ∧ Compute RealArith.binary32 0 (floatContext 247665088 1 2 [1] [some 0])
          = .ok { dims := [1], data := [some 2] }
      ∧ isFloat (-FLT_MAX) ∧ isFloat FLT_MAX ∧ -FLT_MAX < FLT_MAX
      ∧ (InferShape
          ⟨["Out"], (floatContext 247665088 (-FLT_MAX) FLT_MAX [1] [some 0]).attrs, []⟩).1
          = .ok ()
      ∧ Compute RealArith.binary32 0 (floatContext 247665088 (-FLT_MAX) FLT_MAX [1] [some 0])
          = .ok { dims := [1], data := [none] } := by
  refine ⟨isFloat_one, isFloat_two, by norm_num, by decide, ?_, ?_,
    isFloat_neg isFloat_FLT_MAX, isFloat_FLT_MAX, by norm_num [FLT_MAX], ?_, ?_⟩
  · rw [InferShape_pass ⟨["Out"], (floatContext 247665088 1 2 [1] [some 0]).attrs, []⟩ 1 2 [1]
      rfl rfl rfl (by norm_num) rfl]
  · rw [Compute_eq RealArith.binary32 0 (floatContext 247665088 1 2 [1] [some 0]) 247665088 1 2
      rfl rfl rfl (by decide)]
    have hn : (floatContext 247665088 1 2 [1] [some 0]).Out.numel.toNat = 1 := by decide
    have hraw : rawDraw (effectiveSeed 247665088 0) 1 = 2147483646 := by decide
    rw [hn, drawSequence_one]
    simp only [drawValue, hraw, binary32_ofFloat, canonical_2147483646, fl_of_isFloat isFloat_one,
      fl_of_isFloat isFloat_two, binary32_sub]
    norm_num [fl_of_isFloat isFloat_one, binary32_mul, fl_of_isFloat isFloat_pred_one,
      binary32_add, fl_one_add_pred_one, floatContext]
  · rw [InferShape_pass
      ⟨["Out"], (floatContext 247665088 (-FLT_MAX) FLT_MAX [1] [some 0]).attrs, []⟩
      (-FLT_MAX) FLT_MAX [1] rfl rfl rfl (by norm_num [FLT_MAX]) rfl]
  · rw [Compute_eq RealArith.binary32 0
      (floatContext 247665088 (-FLT_MAX) FLT_MAX [1] [some 0]) 247665088 (-FLT_MAX) FLT_MAX
      rfl rfl rfl (by decide)]
    have hn : (floatContext 247665088 (-FLT_MAX) FLT_MAX [1] [some 0]).Out.numel.toNat = 1 := by
      decide
    rw [hn, drawSequence_one, drawValue_binary32_overflow]
    rfl

theorem C5_binary32_elements_in_closed_range_witness :
    ∃ t, Compute RealArith.binary32 7
          (floatContext 42 1 2 [2, 3] [none, none, some 0, some 0, some 0, some 0, some 9]) = .ok t
      ∧ ∀ i, i < (floatContext 42 1 2 [2, 3]
            [none, none, some 0, some 0, some 0, some 0, some 9]).Out.numel.toNat →
          ∃ v, t.data[i]? = some (some v) ∧ 1 ≤ v ∧ v ≤ 2
            ∧ (uniform_real_distribution.draw RealArith.binary32
                ⟨RealArith.binary32.ofFloat 1, RealArith.binary32.ofFloat 2⟩
                ((minstd_rand.init.seed (effectiveSeed 42 7)).discard i)).1 = some v :=
  C5_binary32_elements_in_closed_range 7
    (floatContext 42 1 2 [2, 3] [none, none, some 0, some 0, some 0, some 0, some 9]) 42 1 2
    rfl rfl rfl (by decide) isFloat_one isFloat_two (by norm_num)
    (by norm_num [fl_of_isFloat isFloat_one]; exact Option.some_ne_none 1)

theorem seedState_idem (seed : ℕ) : seedState (seedState seed) = seedState seed := by
  have h1 := seedState_pos seed
  have h2 := seedState_lt seed
  rw [seedState_eq (seedState seed), Nat.mod_eq_of_lt h2, if_neg (by omega)]

theorem seed_discard_next_fst (seed i : ℕ) :
    ((minstd_rand.init.seed seed).discard i).next.1 = rawDraw seed (i + 1) := by
  rw [discard_next_fst, seed_x]
  rfl

theorem drawSequence_eq_iff {T : Type} (A : RealArith T) (a b : T) (seed₁ seed₂ n : ℕ) :
    drawSequence A a b seed₁ n = drawSequence A a b seed₂ n
      ↔ ∀ i, i < n → drawValue A a b seed₁ (i + 1) = drawValue A a b seed₂ (i + 1) := by
  constructor
  · intro h i hi
    have := congrArg (fun l => l[i]?) h
    simp only [drawSequence_getElem? _ _ _ _ _ _ hi] at this
    exact Option.some.inj this
  · intro h
    unfold drawSequence
    apply List.map_congr_left
    intro i hi
    exact h i (List.mem_range.mp hi)

/-- C6 (as stated) fails, in two ways. The seeds 1 and 2147483647 are different
non-zero `int` values that put the engine in the same state, so the kernel
returns the same tensor for both (range `[0, 1)`, shape `[2, 3]`). The seeds
1775986015 and 1528320927 put the engine in different states, whose first raw
draws `2^30 + 1` and `2^30 + 2` the `float` kernel both turns into 0.5, so it
returns the same one-element tensor for both. -/
theorem C6_distinct_seeds_same_output :
    isInt 1 ∧ isInt 2147483647 ∧ (1 : Int) ≠ 0 ∧ (2147483647 : Int) ≠ 0
      ∧ (1 : Int) ≠ 2147483647
      ∧ (unitRangeContext 1 [2, 3] [9, 9, 9, 9, 9, 9]).Out.numel = 6
      ∧ Compute RealArith.exact 0 (unitRangeContext 1 [2, 3] [9, 9, 9, 9, 9, 9])
          = Compute RealArith.exact 0 (unitRangeContext 2147483647 [2, 3] [9, 9, 9, 9, 9, 9])
      ∧ isInt 1775986015 ∧ isInt 1528320927 ∧ (1775986015 : Int) ≠ 1528320927
      ∧ seedState (static_cast_unsigned 1775986015) ≠ seedState (static_cast_unsigned 1528320927)
      ∧ Compute RealArith.binary32 0 (floatContext 1775986015 0 1 [1] [some 0])
          = .ok { dims := [1], data := [some (1 / 2)] }
      ∧ Compute RealArith.binary32 0 (floatContext 1528320927 0 1 [1] [some 0])
          = .ok { dims := [1], data := [some (1 / 2)] } := by
  refine ⟨by decide, by decide, by decide, by decide, by decide, by decide, ?_,
    by decide, by decide, by decide, by decide, ?_, ?_⟩
  · rw [Compute_eq RealArith.exact 0 (unitRangeContext 1 [2, 3] [9, 9, 9, 9, 9, 9]) 1 0 1
        rfl rfl rfl (by decide),
      Compute_eq RealArith.exact 0 (unitRangeContext 2147483647 [2, 3] [9, 9, 9, 9, 9, 9])
        2147483647 0 1 rfl rfl rfl (by decide)]
    rw [drawSequence_congr RealArith.exact _ _ (effectiveSeed 1 0) (effectiveSeed 2147483647 0) _
      (by decide)]
    rfl
  · rw [Compute_eq RealArith.binary32 0 (floatContext 1775986015 0 1 [1] [some 0]) 1775986015 0 1
      rfl rfl rfl (by decide)]
    have hn : (floatContext 1775986015 0 1 [1] [some 0]).Out.numel.toNat = 1 := by decide
    have hraw : rawDraw (effectiveSeed 1775986015 0) 1 = 1073741825 := by decide
    rw [hn, drawSequence_one]
    simp only [drawValue, hraw, binary32_ofFloat, canonical_1073741825, fl_of_isFloat isFloat_one,
      fl_of_isFloat isFloat_zero, binary32_sub]
    norm_num [fl_of_isFloat isFloat_one, binary32_mul, fl_of_isFloat isFloat_half,
      binary32_add, floatContext]
  · rw [Compute_eq RealArith.binary32 0 (floatContext 1528320927 0 1 [1] [some 0]) 1528320927 0 1
      rfl rfl rfl (by decide)]
    have hn : (floatContext 1528320927 0 1 [1] [some 0]).Out.numel.toNat = 1 := by decide
    have hraw : rawDraw (effectiveSeed 1528320927 0) 1 = 1073741826 := by decide
    rw [hn, drawSequence_one]
    simp only [drawValue, hraw, binary32_ofFloat, canonical_1073741826, fl_of_isFloat isFloat_one,
      fl_of_isFloat isFloat_zero, binary32_sub]
    norm_num [fl_of_isFloat isFloat_one, binary32_mul, fl_of_isFloat isFloat_half,
      binary32_add, floatContext]

/-- C6 (amended): the output depends on a non-zero seed only through the engine
state it produces (the seed cast to `unsigned`, reduced modulo `2^31 - 1`, with
0 replaced by 1): the elements written are the draw sequence of that state, so
seeds with the same state write the same elements. Two seeds with different
states feed different raw engine draws into the distribution at every index,
and the two outputs coincide exactly when the element arithmetic turns the two
raw draws of every index into the same value. -/
theorem C6_output_determined_by_engine_state {T : Type} (A : RealArith T) (e₁ e₂ : Nat)
    (ctx₁ ctx₂ : ExecutionContext T) (s₁ s₂ : Int) (min max : ℚ)
    (hs₁ : isInt s₁) (hne₁ : s₁ ≠ 0) (hs₂ : isInt s₂) (hne₂ : s₂ ≠ 0)
    (hseed₁ : ctx₁.attrs.GetInt "seed" = .ok s₁)
    (hmin₁ : ctx₁.attrs.GetFloat "min" = .ok min)
    (hmax₁ : ctx₁.attrs.GetFloat "max" = .ok max)
    (halloc₁ : ctx₁.Out.allocated)
    (hseed₂ : ctx₂.attrs.GetInt "seed" = .ok s₂)
    (hmin₂ : ctx₂.attrs.GetFloat "min" = .ok min)
    (hmax₂ : ctx₂.attrs.GetFloat "max" = .ok max)
    (halloc₂ : ctx₂.Out.allocated)
    (hn : ctx₁.Out.numel = ctx₂.Out.numel) :
    ∃ t₁ t₂, Compute A e₁ ctx₁ = .ok t₁ ∧ Compute A e₂ ctx₂ = .ok t₂
      ∧ t₁.elements = drawSequence A (A.ofFloat min) (A.ofFloat max)
          (seedState (static_cast_unsigned s₁)) ctx₁.Out.numel.toNat
      ∧ t₂.elements = drawSequence A (A.ofFloat min) (A.ofFloat max)
          (seedState (static_cast_unsigned s₂)) ctx₁.Out.numel.toNat
      ∧ (t₁.elements = t₂.elements ↔
          ∀ i, i < ctx₁.Out.numel.toNat →
            (uniform_real_distribution.draw A ⟨A.ofFloat min, A.ofFloat max⟩
              ((minstd_rand.init.seed (static_cast_unsigned s₁)).discard i)).1
            = (uniform_real_distribution.draw A ⟨A.ofFloat min, A.ofFloat max⟩
              ((minstd_rand.init.seed (static_cast_unsigned s₂)).discard i)).1)
      ∧ (seedState (static_cast_unsigned s₁) ≠ seedState (static_cast_unsigned s₂) →
          ∀ i, ((minstd_rand.init.seed (static_cast_unsigned s₁)).discard i).next.1
            ≠ ((minstd_rand.init.seed (static_cast_unsigned s₂)).discard i).next.1) := by
  obtain ⟨t₁, h₁, el₁⟩ := elements_Compute A e₁ ctx₁ s₁ min max hseed₁ hmin₁ hmax₁ halloc₁
  obtain ⟨t₂, h₂, el₂⟩ := elements_Compute A e₂ ctx₂ s₂ min max hseed₂ hmin₂ hmax₂ halloc₂
  rw [effectiveSeed_of_ne_zero s₁ hs₁ hne₁] at el₁
  rw [effectiveSeed_of_ne_zero s₂ hs₂ hne₂, ← hn] at el₂
  refine ⟨t₁, t₂, h₁, h₂, ?_, ?_, ?_, ?_⟩
  · rw [el₁]
    exact drawSequence_congr A _ _ _ _ _ (seedState_idem _).symm
  · rw [el₂]
    exact drawSequence_congr A _ _ _ _ _ (seedState_idem _).symm
  · rw [el₁, el₂, drawSequence_eq_iff]
    simp only [draw_discard]
  · intro hst i
    rw [seed_discard_next_fst, seed_discard_next_fst]
    exact rawDraw_ne _ _ (i + 1) hst

theorem C6_output_determined_by_engine_state_witness :
    ∃ t₁ t₂, Compute RealArith.binary32 3 (floatContext 1 0 1 [2] [some 9, some 9]) = .ok t₁
      ∧ Compute RealArith.binary32 4 (floatContext 2 0 1 [2] [none, none, none]) = .ok t₂
      ∧ t₁.elements = drawSequence RealArith.binary32 (RealArith.binary32.ofFloat 0)
          (RealArith.binary32.ofFloat 1) (seedState (static_cast_unsigned 1))
          (floatContext 1 0 1 [2] [some 9, some 9]).Out.numel.toNat
      ∧ t₂.elements = drawSequence RealArith.binary32 (RealArith.binary32.ofFloat 0)
          (RealArith.binary32.ofFloat 1) (seedState (static_cast_unsigned 2))
          (floatContext 1 0 1 [2] [some 9, some 9]).Out.numel.toNat
      ∧ (t₁.elements = t₂.elements ↔
          ∀ i, i < (floatContext 1 0 1 [2] [some 9, some 9]).Out.numel.toNat →
            (uniform_real_distribution.draw RealArith.binary32
              ⟨RealArith.binary32.ofFloat 0, RealArith.binary32.ofFloat 1⟩
              ((minstd_rand.init.seed (static_cast_unsigned 1)).discard i)).1
            = (uniform_real_distribution.draw RealArith.binary32
              ⟨RealArith.binary32.ofFloat 0, RealArith.binary32.ofFloat 1⟩
              ((minstd_rand.init.seed (static_cast_unsigned 2)).discard i)).1)
      ∧ ∀ i, ((minstd_rand.init.seed (static_cast_unsigned 1)).discard i).next.1
          ≠ ((minstd_rand.init.seed (static_cast_unsigned 2)).discard i).next.1 := by
  obtain ⟨t₁, t₂, h1, h2, h3, h4, h5, h6⟩ :=
    C6_output_determined_by_engine_state RealArith.binary32 3 4
      (floatContext 1 0 1 [2] [some 9, some 9]) (floatContext 2 0 1 [2] [none, none, none])
      1 2 0 1 (by decide) (by decide) (by decide) (by decide) rfl rfl rfl (by decide)
      rfl rfl rfl (by decide) (by decide)
  exact ⟨t₁, t₂, h1, h2, h3, h4, h5, h6 (by decide)⟩


end paddle
